import Mathlib

/-!
# RingBuffer

A shallow embedding of `src/RingBuffer/RingBuffer.cpp` (class `RingBuffer`), a
fixed-capacity circular byte buffer, together with machine-checked statements of
its specification.

Modelling conventions.

* `std::size_t` and `std::uint64_t` are 64-bit unsigned integers.  They are
  embedded as `Nat` and every arithmetic operation of the source that can wrap is
  followed by an explicit reduction modulo `2^64` (`wrapping_add`, `wrapping_sub`).
* A pointer is `Option (List Byte)`: `none` is the null pointer, `some m` points to
  a region holding the bytes `m`.  The buffer's own storage, the `src` argument of
  `enqueue` and the `dst` argument of `dequeue`/`peek` are distinct regions.
* `std::memcpy` is a byte-by-byte copy loop (`memcpy`).
* `new (std::nothrow) std::byte[n]` is an allocator `alloc : Nat → Option (List Byte)`
  handed to the constructor; the bytes of fresh storage are arbitrary.
* `std::bit_ceil` has undefined behaviour when its result is not representable;
  there `bit_ceil` returns `none`, and so does the constructor.
-/

/-- One byte of storage (`std::byte`). -/
abbrev Byte := UInt8

/-- Unsigned 64-bit addition: `a + b` reduced modulo `2^64`. -/
def wrapping_add (a b : Nat) : Nat :=
  (a + b) % 18446744073709551616

/-- Unsigned 64-bit subtraction: `a - b` reduced modulo `2^64`. -/
def wrapping_sub (a b : Nat) : Nat :=
  (a + (18446744073709551616 - b % 18446744073709551616)) % 18446744073709551616

/-- The copy loop of `std::memcpy(dst + d, src + s, n)`: `n` bytes, one at a time,
from offset `s` of `src` to offset `d` of `dst`.  A call that stays inside both
regions is the only kind C++ gives a meaning to; outside them a read yields 0 and a
write is dropped, and the statements about transferred bytes below assume regions of
sufficient length. -/
def memcpy (dst : List Byte) (d : Nat) (src : List Byte) (s : Nat) : Nat → List Byte
  | 0 => dst
  | n + 1 => memcpy (dst.set d (src.getD s 0)) (d + 1) src (s + 1) n

/-- The doubling search behind `std::bit_ceil`: the first of `p, 2p, 4p, ...`
that is at least `x`, looking at no more than `fuel + 1` candidates. -/
def bit_ceil_loop : Nat → Nat → Nat → Nat
  | 0, p, _ => p
  | fuel + 1, p, x => if x ≤ p then p else bit_ceil_loop fuel (2 * p) x

/-- The function `std::bit_ceil` on a 64-bit `std::size_t`: the smallest power of two
not below `x`; undefined (`none`) when that power is not representable, that is when
`x > 2^63`. -/
def bit_ceil (x : Nat) : Option Nat :=
  if x ≤ 9223372036854775808 then some (bit_ceil_loop 63 1 x) else none

/-- The data members of `class RingBuffer` (RingBuffer.hpp, lines 38-42). -/
structure RingBuffer where
  buffer : Option (List Byte)
  capacity : Nat
  mask : Nat
  read_index : Nat
  write_index : Nat
deriving DecidableEq

/-- What `enqueue` leaves behind: the returned flag and the buffer afterwards. -/
structure WriteResult where
  ok : Bool
  self : RingBuffer
deriving DecidableEq

/-- What `dequeue` and `peek` leave behind: the returned flag, the buffer afterwards
and the region `dst` points to afterwards. -/
structure ReadResult where
  ok : Bool
  self : RingBuffer
  dst : Option (List Byte)
deriving DecidableEq

namespace RingBuffer

/-- The constructor `RingBuffer::RingBuffer(std::size_t)` (RingBuffer.cpp, lines 6-13).
`alloc` is the outcome of `new (std::nothrow) std::byte[n]` for each `n`. -/
def construct (alloc : Nat → Option (List Byte)) (buffer_capacity : Nat) :
    Option RingBuffer :=
  match bit_ceil buffer_capacity with
  | none => none
  | some cap =>
    match alloc cap with
    | some mem =>
      some { buffer := some mem, capacity := cap, mask := wrapping_sub cap 1,
             read_index := 0, write_index := 0 }
    | none =>
      some { buffer := none, capacity := 0, mask := wrapping_sub cap 1,
             read_index := 0, write_index := 0 }

/-- The method `get_capacity` (lines 52-55). -/
def get_capacity (self : RingBuffer) : Nat :=
  self.capacity

/-- The method `get_used_size` (lines 57-60). -/
def get_used_size (self : RingBuffer) : Nat :=
  wrapping_sub self.write_index self.read_index

/-- The method `get_free_size` (lines 62-65). -/
def get_free_size (self : RingBuffer) : Nat :=
  wrapping_sub self.capacity self.get_used_size

/-- The local `space_to_end` of `enqueue`, `dequeue` and `peek`:
`capacity - (index & mask)`. -/
def space_to_end (self : RingBuffer) (index : Nat) : Nat :=
  wrapping_sub self.capacity (index &&& self.mask)

/-- The local `first_size`: `space_to_end >= size ? size : space_to_end`. -/
def first_size (space_to_end size : Nat) : Nat :=
  if space_to_end ≥ size then size else space_to_end

/-- The local `second_size`: `size - first_size`. -/
def second_size (size first_size : Nat) : Nat :=
  wrapping_sub size first_size

/-- The two `memcpy` calls of `enqueue` (lines 83-85) on the storage `buf`. -/
def copy_in (self : RingBuffer) (buf src_ptr : List Byte) (size : Nat) : List Byte :=
  let first := first_size (self.space_to_end self.write_index) size
  let second := second_size size first
  let buf1 := memcpy buf (self.write_index &&& self.mask) src_ptr 0 first
  if second ≠ 0 then memcpy buf1 0 src_ptr first second else buf1

/-- The two `memcpy` calls of `dequeue` and `peek` (lines 108-110, 133-135) on the
destination region `dst_ptr`. -/
def copy_out (self : RingBuffer) (buf dst_ptr : List Byte) (size : Nat) : List Byte :=
  let first := first_size (self.space_to_end self.read_index) size
  let second := second_size size first
  let dst1 := memcpy dst_ptr 0 buf (self.read_index &&& self.mask) first
  if second ≠ 0 then memcpy dst1 first buf 0 second else dst1

/-- The method `enqueue` (lines 67-90). -/
def enqueue (self : RingBuffer) (src : Option (List Byte)) (size : Nat) : WriteResult :=
  if size = 0 then ⟨true, self⟩
  else
    match self.buffer, src with
    | some buf, some src_ptr =>
      if self.get_free_size < size then ⟨false, self⟩
      else
        ⟨true, { self with
                  buffer := some (self.copy_in buf src_ptr size)
                  write_index := wrapping_add self.write_index size }⟩
    | _, _ => ⟨false, self⟩

/-- The method `dequeue` (lines 92-115). -/
def dequeue (self : RingBuffer) (dst : Option (List Byte)) (size : Nat) : ReadResult :=
  if size = 0 then ⟨true, self, dst⟩
  else
    match self.buffer, dst with
    | some buf, some dst_ptr =>
      if self.get_used_size < size then ⟨false, self, dst⟩
      else
        ⟨true, { self with read_index := wrapping_add self.read_index size },
          some (self.copy_out buf dst_ptr size)⟩
    | _, _ => ⟨false, self, dst⟩

/-- The method `peek` (lines 117-138). -/
def peek (self : RingBuffer) (dst : Option (List Byte)) (size : Nat) : ReadResult :=
  if size = 0 then ⟨true, self, dst⟩
  else
    match self.buffer, dst with
    | some buf, some dst_ptr =>
      if self.get_used_size < size then ⟨false, self, dst⟩
      else ⟨true, self, some (self.copy_out buf dst_ptr size)⟩
    | _, _ => ⟨false, self, dst⟩

/-- The method `clear_buffer` (lines 140-144). -/
def clear_buffer (self : RingBuffer) : RingBuffer :=
  { self with read_index := 0, write_index := 0 }

/-- The method `advance_read_index` (lines 168-171). -/
def advance_read_index (self : RingBuffer) (size : Nat) : RingBuffer :=
  { self with read_index := wrapping_add self.read_index size }

/-- The method `advance_write_index` (lines 173-176). -/
def advance_write_index (self : RingBuffer) (size : Nat) : RingBuffer :=
  { self with write_index := wrapping_add self.write_index size }

/-- The method `get_direct_enqueue_size` (lines 146-155). -/
def get_direct_enqueue_size (self : RingBuffer) : Nat :=
  let free_size := self.get_free_size
  let space_to_end := self.space_to_end self.write_index
  if space_to_end ≥ free_size then free_size else space_to_end

/-- The method `get_direct_dequeue_size` (lines 157-166). -/
def get_direct_dequeue_size (self : RingBuffer) : Nat :=
  let used_size := self.get_used_size
  let space_to_end := self.space_to_end self.read_index
  if space_to_end ≥ used_size then used_size else space_to_end

/-- The method `get_direct_enqueue_ptr` (lines 178-190): the offset into the storage
the returned pointer designates, `none` for the null pointer. -/
def get_direct_enqueue_ptr (self : RingBuffer) : Option Nat :=
  match self.buffer with
  | none => none
  | some _ => some (self.write_index &&& self.mask)

/-- The method `get_direct_dequeue_ptr` (lines 192-204): the offset into the storage
the returned pointer designates, `none` for the null pointer. -/
def get_direct_dequeue_ptr (self : RingBuffer) : Option Nat :=
  match self.buffer with
  | none => none
  | some _ => some (self.read_index &&& self.mask)

/-- The used-size invariant of the data model: `write_index - read_index`, taken as
an unsigned difference, does not exceed `capacity`. -/
def used_size_invariant (self : RingBuffer) : Prop :=
  self.get_used_size ≤ self.get_capacity

instance (self : RingBuffer) : Decidable self.used_size_invariant :=
  inferInstanceAs (Decidable (self.get_used_size ≤ self.get_capacity))

/-- A call of one of the state-changing public methods, with its arguments. -/
inductive Op where
  | enqueue (src : Option (List Byte)) (size : Nat)
  | dequeue (dst : Option (List Byte)) (size : Nat)
  | peek (dst : Option (List Byte)) (size : Nat)
  | clear_buffer
  | advance_read_index (size : Nat)
  | advance_write_index (size : Nat)
deriving DecidableEq

/-- The calls of the checked interface: everything but the two unchecked
`advance_*_index` methods. -/
def Op.checked : Op → Bool
  | .advance_read_index _ => false
  | .advance_write_index _ => false
  | _ => true

/-- The calls that move data in or out and consume it: `enqueue` and `dequeue`. -/
def Op.transfer : Op → Bool
  | .enqueue _ _ => true
  | .dequeue _ _ => true
  | _ => false

/-- An `advance_*_index` call that commits no more than what is there to commit:
at most the free size on the write side, at most the used size on the read side.
Every other call is in bounds. -/
def Op.in_bounds (self : RingBuffer) : Op → Prop
  | .advance_read_index size => size ≤ self.get_used_size
  | .advance_write_index size => size ≤ self.get_free_size
  | _ => True

instance (self : RingBuffer) : (op : Op) → Decidable (op.in_bounds self)
  | .enqueue _ _ => isTrue trivial
  | .dequeue _ _ => isTrue trivial
  | .peek _ _ => isTrue trivial
  | .clear_buffer => isTrue trivial
  | .advance_read_index size => inferInstanceAs (Decidable (size ≤ self.get_used_size))
  | .advance_write_index size => inferInstanceAs (Decidable (size ≤ self.get_free_size))

/-- The buffer after one call. -/
def step (self : RingBuffer) : Op → RingBuffer
  | .enqueue src size => (self.enqueue src size).self
  | .dequeue dst size => (self.dequeue dst size).self
  | .peek dst size => (self.peek dst size).self
  | .clear_buffer => self.clear_buffer
  | .advance_read_index size => self.advance_read_index size
  | .advance_write_index size => self.advance_write_index size

/-- The buffer after a sequence of calls, first call first. -/
def run (self : RingBuffer) (ops : List Op) : RingBuffer :=
  ops.foldl step self

/-- The outcome of `n + 1` successive `peek` calls of the same size, each one made
on the buffer and the destination region the previous one left. -/
def peek_repeat (self : RingBuffer) (dst : Option (List Byte)) (size : Nat) :
    Nat → ReadResult
  | 0 => self.peek dst size
  | n + 1 =>
    (peek_repeat self dst size n).self.peek (peek_repeat self dst size n).dst size

/-- The move constructor `RingBuffer::RingBuffer(RingBuffer &&)` (lines 20-30): the
newly constructed object first, what is left of `other` second. -/
def move_construct (other : RingBuffer) : RingBuffer × RingBuffer :=
  (⟨other.buffer, other.capacity, other.mask, other.read_index, other.write_index⟩,
   clear_buffer { other with buffer := none, capacity := 0 })

/-- The move assignment `RingBuffer::operator=(RingBuffer &&)` (lines 32-50): `*this`
afterwards first, `other` afterwards second.  `same` is the outcome of the test
`this == &other`; when it holds there is one object only, `self`, and it is returned
as it is.  Releasing the storage `*this` owned before (`delete[]`, line 37) leaves no
trace in the state. -/
def move_assign (self other : RingBuffer) (same : Bool) : RingBuffer × RingBuffer :=
  if same then (self, self)
  else
    (⟨other.buffer, other.capacity, other.mask, other.read_index, other.write_index⟩,
     clear_buffer { other with buffer := none, capacity := 0 })

/-- What a caller of the direct-access interface does to the storage when it writes
the bytes `X` through the pointer `get_direct_enqueue_ptr` returns (stated after the
specification, section 4.1, direct zero-copy access; the buffer itself has no method
for it).  Through a null pointer nothing can be written. -/
def direct_write (self : RingBuffer) (X : List Byte) : RingBuffer :=
  match self.buffer, self.get_direct_enqueue_ptr with
  | some buf, some off => { self with buffer := some (memcpy buf off X 0 X.length) }
  | _, _ => self

/-- The part of the representation invariant that ties the storage to the other
members: absent storage goes with capacity 0 and both counters at 0 (a failed
allocation, a moved-from object); present storage has `capacity` bytes, `capacity`
is a power of two that fits `std::size_t`, and `mask` is `capacity - 1`. -/
def storage_invariant (self : RingBuffer) : Option (List Byte) → Prop
  | none => self.capacity = 0 ∧ self.read_index = 0 ∧ self.write_index = 0
  | some buf =>
    buf.length = self.capacity ∧ self.mask = self.capacity - 1
      ∧ ∃ k, k ≤ 63 ∧ self.capacity = 2 ^ k

instance (self : RingBuffer) : (o : Option (List Byte)) → Decidable (self.storage_invariant o)
  | none =>
    inferInstanceAs
      (Decidable (self.capacity = 0 ∧ self.read_index = 0 ∧ self.write_index = 0))
  | some buf =>
    inferInstanceAs
      (Decidable (buf.length = self.capacity ∧ self.mask = self.capacity - 1
        ∧ ∃ k, k ≤ 63 ∧ self.capacity = 2 ^ k))

/-- The invariants of the data model: both counters are 64-bit values, the used size
does not exceed the capacity, and the storage fits the other members. -/
def invariants (self : RingBuffer) : Prop :=
  self.read_index < 18446744073709551616 ∧ self.write_index < 18446744073709551616
    ∧ self.get_used_size ≤ self.get_capacity ∧ self.storage_invariant self.buffer

instance (self : RingBuffer) : Decidable self.invariants :=
  inferInstanceAs
    (Decidable (self.read_index < 18446744073709551616
      ∧ self.write_index < 18446744073709551616
      ∧ self.get_used_size ≤ self.get_capacity ∧ self.storage_invariant self.buffer))

/-- The two spans of a transfer of `size` bytes at counter value `index` stay inside
the storage: the offset `index & mask` is below `capacity`, the first span ends at or
before the physical end, the two spans make up `size` bytes, and the second span,
which starts at offset 0, ends at or before the offset of the first. -/
def spans_in_bounds (self : RingBuffer) (index size : Nat) : Prop :=
  (index &&& self.mask) < self.capacity
    ∧ (index &&& self.mask) + first_size (self.space_to_end index) size ≤ self.capacity
    ∧ first_size (self.space_to_end index) size
        + second_size size (first_size (self.space_to_end index) size) = size
    ∧ second_size size (first_size (self.space_to_end index) size) ≤ (index &&& self.mask)

instance (self : RingBuffer) (index size : Nat) : Decidable (self.spans_in_bounds index size) :=
  inferInstanceAs
    (Decidable ((index &&& self.mask) < self.capacity
      ∧ (index &&& self.mask) + first_size (self.space_to_end index) size ≤ self.capacity
      ∧ first_size (self.space_to_end index) size
          + second_size size (first_size (self.space_to_end index) size) = size
      ∧ second_size size (first_size (self.space_to_end index) size)
          ≤ (index &&& self.mask)))

/-- The bytes at the logical positions `index`, ..., `index + n - 1`, read off the
storage `buf`: the byte of logical position `i` is the one at physical offset
`i & mask` (data model of the specification, section 3). -/
def logical_bytes (self : RingBuffer) (buf : List Byte) (index n : Nat) : List Byte :=
  (List.range n).map (fun i => buf.getD ((index + i) &&& self.mask) 0)

end RingBuffer

/-! ## The copy loop -/

/-- Copying never changes the length of the destination region. -/
theorem memcpy_length (dst : List Byte) (d : Nat) (src : List Byte) (s n : Nat) :
    (memcpy dst d src s n).length = dst.length := by
  induction n generalizing dst d s with
  | zero => rfl
  | succ n ih => simp [memcpy, ih]

/-- Byte `i` of the destination after a copy: a byte of the source inside the copied
range, the old byte elsewhere. -/
theorem memcpy_getElem? (dst : List Byte) (d : Nat) (src : List Byte) (s n i : Nat) :
    (memcpy dst d src s n)[i]? =
      if d ≤ i ∧ i < d + n ∧ i < dst.length then some (src.getD (s + (i - d)) 0)
      else dst[i]? := by
  induction n generalizing dst d s with
  | zero =>
    have e : ¬ (d ≤ i ∧ i < d + 0 ∧ i < dst.length) := by omega
    rw [if_neg e]
    rfl
  | succ n ih =>
    rw [memcpy, ih, List.length_set, List.getElem?_set]
    by_cases h1 : d = i
    · subst h1
      have e1 : ¬ (d + 1 ≤ d ∧ d < d + 1 + n ∧ d < dst.length) := by omega
      rw [if_neg e1, if_pos rfl]
      by_cases h2 : d < dst.length
      · have e2 : (d ≤ d ∧ d < d + (n + 1) ∧ d < dst.length) := by omega
        rw [if_pos e2, if_pos h2, Nat.sub_self, Nat.add_zero]
      · have e2 : ¬ (d ≤ d ∧ d < d + (n + 1) ∧ d < dst.length) := by omega
        rw [if_neg e2, if_neg h2]
        exact (List.getElem?_eq_none (Nat.le_of_not_lt h2)).symm
    · rw [if_neg h1]
      by_cases h3 : d + 1 ≤ i ∧ i < d + 1 + n ∧ i < dst.length
      · have e2 : (d ≤ i ∧ i < d + (n + 1) ∧ i < dst.length) := by omega
        have e3 : s + 1 + (i - (d + 1)) = s + (i - d) := by omega
        rw [if_pos h3, if_pos e2, e3]
      · have e2 : ¬ (d ≤ i ∧ i < d + (n + 1) ∧ i < dst.length) := by omega
        rw [if_neg h3, if_neg e2]

namespace RingBuffer

/-! ## Failure conditions of the checked transfers -/

/-- A full buffer has no free byte. -/
theorem free_size_of_full (self : RingBuffer)
    (h : self.get_used_size = self.get_capacity) : self.get_free_size = 0 := by
  simp only [get_free_size, get_capacity] at *
  rw [h]
  simp only [wrapping_sub]
  omega

/-- A positive size above the free size is refused. -/
theorem enqueue_refused (self : RingBuffer) (src : Option (List Byte)) (size : Nat)
    (h : self.get_free_size < size) : (self.enqueue src size).ok = false := by
  have hs : size ≠ 0 := by omega
  cases hb : self.buffer <;> cases src <;> simp only [enqueue, hs, hb, h, if_false, if_true]

/-- C2. `enqueue` returns failure exactly when `size > 0` and the storage is absent,
or `src` is absent, or the free size is below `size`; a failing `enqueue` leaves the
whole buffer as it was; a buffer filled to capacity rejects every positive size. -/
theorem enqueue_fails_iff (self : RingBuffer) (src : Option (List Byte)) (size : Nat) :
    ((self.enqueue src size).ok = false ↔
      0 < size ∧ (self.buffer = none ∨ src = none ∨ self.get_free_size < size))
    ∧ ((self.enqueue src size).ok = false → (self.enqueue src size).self = self)
    ∧ (self.get_used_size = self.get_capacity →
        0 < size → (self.enqueue src size).ok = false) := by
  by_cases hs : size = 0
  · subst hs
    simp [enqueue]
  · have hpos : 0 < size := Nat.pos_of_ne_zero hs
    cases hb : self.buffer <;> cases src <;>
      simp only [enqueue, hs, hb, if_false, hpos, true_and, true_or, or_true, iff_true,
        implies_true, and_self, false_or]
    by_cases hf : self.get_free_size < size
    · simp [hf]
    · simp only [hf, if_false]
      refine ⟨by simp, by simp, ?_⟩
      intro h
      have := free_size_of_full self h
      omega

/-- A full one-byte buffer turns down one more byte and stays as it was. -/
theorem enqueue_fails_iff_witness :
    ((⟨some [7], 1, 0, 0, 1⟩ : RingBuffer).enqueue (some [9]) 1).ok = false
    ∧ ((⟨some [7], 1, 0, 0, 1⟩ : RingBuffer).enqueue (some [9]) 1).self
        = ⟨some [7], 1, 0, 0, 1⟩ :=
  have h := enqueue_fails_iff ⟨some [7], 1, 0, 0, 1⟩ (some [9]) 1
  ⟨h.2.2 (by decide) (by decide), h.2.1 (h.2.2 (by decide) (by decide))⟩

/-- C3. `dequeue` and `peek` return failure exactly when `size > 0` and the storage
is absent, or `dst` is absent, or the used size is below `size`; on failure the
buffer and the destination are as they were; a successful `dequeue` moves
`read_index` forward by `size` (modulo `2^64`), lowers the used size by exactly
`size`, and leaves `write_index`, `capacity`, `mask` and the storage alone. -/
theorem dequeue_peek_fail_iff (self : RingBuffer) (dst : Option (List Byte)) (size : Nat)
    (hr : self.read_index < 18446744073709551616) :
    ((self.dequeue dst size).ok = false ↔
      0 < size ∧ (self.buffer = none ∨ dst = none ∨ self.get_used_size < size))
    ∧ ((self.peek dst size).ok = false ↔
      0 < size ∧ (self.buffer = none ∨ dst = none ∨ self.get_used_size < size))
    ∧ ((self.dequeue dst size).ok = false →
        (self.dequeue dst size).self = self ∧ (self.dequeue dst size).dst = dst)
    ∧ ((self.peek dst size).ok = false →
        (self.peek dst size).self = self ∧ (self.peek dst size).dst = dst)
    ∧ ((self.dequeue dst size).ok = true →
        (self.dequeue dst size).self.read_index
            = (self.read_index + size) % 18446744073709551616
        ∧ (self.dequeue dst size).self.get_used_size + size = self.get_used_size
        ∧ (self.dequeue dst size).self.write_index = self.write_index
        ∧ (self.dequeue dst size).self.capacity = self.capacity
        ∧ (self.dequeue dst size).self.mask = self.mask
        ∧ (self.dequeue dst size).self.buffer = self.buffer) := by
  by_cases hs : size = 0
  · subst hs
    simp only [dequeue, peek, if_true, Nat.lt_irrefl, false_and, iff_false,
      Bool.true_eq_false, not_false_eq_true, false_implies, true_and, Nat.add_zero,
      and_true, implies_true]
    omega
  · have hpos : 0 < size := Nat.pos_of_ne_zero hs
    cases hb : self.buffer <;> cases dst <;>
      simp only [dequeue, peek, hs, hb, if_false, hpos, true_and, true_or, or_true,
        iff_true, implies_true, and_self, false_or, Bool.false_eq_true, false_implies]
    by_cases hf : self.get_used_size < size
    · simp [hf]
    · simp only [hf, if_false]
      refine ⟨by simp, by simp, by simp, by simp, ?_⟩
      intro _
      simp only [get_used_size, wrapping_add, wrapping_sub, and_true, true_and] at *
      omega

/-- Two of three stored bytes are taken out; a request for four is refused. -/
theorem dequeue_peek_fail_iff_witness :
    ((⟨some [1, 2, 3, 0], 4, 3, 0, 3⟩ : RingBuffer).dequeue (some [0, 0]) 2).self.read_index
        = (0 + 2) % 18446744073709551616
    ∧ ((⟨some [1, 2, 3, 0], 4, 3, 0, 3⟩ : RingBuffer).dequeue (some [0, 0, 0, 0]) 4).ok
        = false :=
  ⟨((dequeue_peek_fail_iff ⟨some [1, 2, 3, 0], 4, 3, 0, 3⟩ (some [0, 0]) 2
      (by decide)).2.2.2.2 (by decide)).1,
   (dequeue_peek_fail_iff ⟨some [1, 2, 3, 0], 4, 3, 0, 3⟩ (some [0, 0, 0, 0]) 4
      (by decide)).1.2 ⟨by decide, Or.inr (Or.inr (by decide))⟩⟩

/-- C10. With `size = 0`, `enqueue`, `dequeue` and `peek` return success whatever the
buffer and whatever the pointer, and leave the buffer and the destination as they
were. -/
theorem size_zero_succeeds (self : RingBuffer) (ptr : Option (List Byte)) :
    self.enqueue ptr 0 = ⟨true, self⟩
    ∧ self.dequeue ptr 0 = ⟨true, self, ptr⟩
    ∧ self.peek ptr 0 = ⟨true, self, ptr⟩ :=
  ⟨rfl, rfl, rfl⟩

/-! ## The used-size invariant -/

/-- Every call of the checked interface, and every in-bounds `advance_*_index`,
keeps the used size within the capacity. -/
theorem step_keeps_used_size (self : RingBuffer) (op : Op)
    (hinv : self.used_size_invariant) (hop : op.in_bounds self) :
    (self.step op).used_size_invariant := by
  cases op with
  | enqueue src size =>
    simp only [step, enqueue]
    split
    · exact hinv
    · split
      · split
        · exact hinv
        · rename_i hf
          simp only [used_size_invariant, get_used_size, get_capacity, get_free_size,
            wrapping_add, wrapping_sub] at *
          omega
      · exact hinv
  | dequeue dst size =>
    simp only [step, dequeue]
    split
    · exact hinv
    · split
      · split
        · exact hinv
        · rename_i hf
          simp only [used_size_invariant, get_used_size, get_capacity,
            wrapping_add, wrapping_sub] at *
          omega
      · exact hinv
  | peek dst size =>
    simp only [step, peek]
    split
    · exact hinv
    · split
      · split <;> exact hinv
      · exact hinv
  | clear_buffer =>
    simp only [step, RingBuffer.clear_buffer, used_size_invariant, get_used_size,
      get_capacity, wrapping_sub]
    omega
  | advance_read_index size =>
    simp only [step, RingBuffer.advance_read_index, Op.in_bounds, used_size_invariant,
      get_used_size, get_capacity, wrapping_add, wrapping_sub] at *
    omega
  | advance_write_index size =>
    simp only [step, RingBuffer.advance_write_index, Op.in_bounds, used_size_invariant,
      get_used_size, get_capacity, get_free_size, wrapping_add, wrapping_sub] at *
    omega

/-- A call of the checked interface is always in bounds. -/
theorem in_bounds_of_checked (self : RingBuffer) (op : Op) (h : op.checked = true) :
    op.in_bounds self := by
  cases op <;> simp_all [Op.checked, Op.in_bounds]

/-- No call changes the capacity. -/
theorem step_capacity (self : RingBuffer) (op : Op) :
    (self.step op).capacity = self.capacity := by
  cases op <;> simp only [step, enqueue, dequeue, peek, RingBuffer.clear_buffer,
    RingBuffer.advance_read_index, RingBuffer.advance_write_index] <;>
    repeat (first | rfl | split)

/-- No sequence of calls changes the capacity. -/
theorem run_capacity (ops : List Op) (self : RingBuffer) :
    (self.run ops).capacity = self.capacity := by
  induction ops generalizing self with
  | nil => rfl
  | cons op ops ih =>
    show ((self.step op).run ops).capacity = self.capacity
    rw [ih, step_capacity]

/-- The used-size invariant survives every sequence of checked calls. -/
theorem run_keeps_used_size (ops : List Op) (self : RingBuffer)
    (hinv : self.used_size_invariant) (hops : ∀ op ∈ ops, op.checked = true) :
    (self.run ops).used_size_invariant := by
  induction ops generalizing self with
  | nil => exact hinv
  | cons op ops ih =>
    show ((self.step op).run ops).used_size_invariant
    apply ih
    · exact step_keeps_used_size self op hinv
        (in_bounds_of_checked self op (hops op (List.mem_cons_self _ _)))
    · intro o ho
      exact hops o (List.mem_cons_of_mem _ ho)

end RingBuffer

/-! ## Construction -/

/-- The doubling search started at `2^j` stops at the smallest power of two that is
at least `x`, provided one exists within `fuel` doublings and every smaller power
already seen is below `x`. -/
theorem bit_ceil_loop_spec (fuel j x : Nat) (hx : x ≤ 2 ^ (j + fuel))
    (hlow : j = 0 ∨ 2 ^ (j - 1) < x) :
    ∃ k, k ≤ j + fuel ∧ bit_ceil_loop fuel (2 ^ j) x = 2 ^ k ∧ x ≤ 2 ^ k
      ∧ (k = 0 ∨ 2 ^ (k - 1) < x) := by
  induction fuel generalizing j with
  | zero => exact ⟨j, Nat.le_refl _, rfl, hx, hlow⟩
  | succ fuel ih =>
    by_cases h : x ≤ 2 ^ j
    · exact ⟨j, by omega, by simp [bit_ceil_loop, h], h, hlow⟩
    · have hx2 : x ≤ 2 ^ (j + 1 + fuel) := by
        have : j + 1 + fuel = j + (fuel + 1) := by omega
        rw [this]; exact hx
      obtain ⟨k, hk, hloop, hle, hmin⟩ := ih (j + 1) hx2 (Or.inr (by simpa using h))
      refine ⟨k, by omega, ?_, hle, hmin⟩
      simp only [bit_ceil_loop, h, if_false]
      rw [← hloop, Nat.pow_succ, Nat.mul_comm]

/-- On `x ≤ 2^63`, `bit_ceil` is defined and returns the smallest power of two that is
at least `x`. -/
theorem bit_ceil_spec (x : Nat) (hx : x ≤ 9223372036854775808) :
    ∃ k, k ≤ 63 ∧ bit_ceil x = some (2 ^ k) ∧ x ≤ 2 ^ k ∧ (k = 0 ∨ 2 ^ (k - 1) < x) := by
  obtain ⟨k, hk, hloop, hle, hmin⟩ :=
    bit_ceil_loop_spec 63 0 x (by simpa using hx) (Or.inl rfl)
  refine ⟨k, by omega, ?_, hle, hmin⟩
  simp only [bit_ceil, hx, if_true]
  rw [← hloop]
  rfl

/-- A power of two with exponent at most 63 fits a 64-bit word with room to spare. -/
theorem two_pow_le_of_le_63 (k : Nat) (hk : k ≤ 63) :
    1 ≤ 2 ^ k ∧ 2 ^ k ≤ 9223372036854775808 := by
  constructor
  · exact Nat.one_le_two_pow
  · have := Nat.pow_le_pow_right (show 0 < 2 by decide) hk
    simpa using this

namespace RingBuffer

/-- What the constructor returns on a request of at most `2^63` bytes. -/
theorem construct_eq (alloc : Nat → Option (List Byte)) (c : Nat)
    (hc : c ≤ 9223372036854775808) :
    ∃ k, k ≤ 63 ∧ c ≤ 2 ^ k ∧ (k = 0 ∨ 2 ^ (k - 1) < c) ∧
      construct alloc c = some
        (match alloc (2 ^ k) with
         | some mem => ⟨some mem, 2 ^ k, 2 ^ k - 1, 0, 0⟩
         | none => ⟨none, 0, 2 ^ k - 1, 0, 0⟩) := by
  obtain ⟨k, hk, hbc, hle, hmin⟩ := bit_ceil_spec c hc
  refine ⟨k, hk, hle, hmin, ?_⟩
  have hm : wrapping_sub (2 ^ k) 1 = 2 ^ k - 1 := by
    have := two_pow_le_of_le_63 k hk
    simp only [wrapping_sub]
    omega
  simp only [construct, hbc, hm]
  cases alloc (2 ^ k) <;> rfl

/-- Whatever the constructor returns is an empty buffer whose capacity is at most
`2^63`. -/
theorem construct_fresh (alloc : Nat → Option (List Byte)) (c : Nat) (rb : RingBuffer)
    (h : construct alloc c = some rb) :
    rb.capacity ≤ 9223372036854775808 ∧ rb.read_index = 0 ∧ rb.write_index = 0 := by
  by_cases hc : c ≤ 9223372036854775808
  · obtain ⟨k, hk, -, -, heq⟩ := construct_eq alloc c hc
    rw [heq] at h
    have hp := (two_pow_le_of_le_63 k hk).2
    cases ha : alloc (2 ^ k) <;> rw [ha] at h <;> simp only [Option.some.injEq] at h <;>
      subst h <;> simp [hp]
  · simp [construct, bit_ceil, hc] at h

/-! ## Claims on the invariant, capacity conservation and construction -/

/-- C4. Starting from whatever the constructor returns (storage obtained or not),
after every finite sequence of `enqueue`, `dequeue`, `peek` and `clear_buffer` calls
with arbitrary arguments the used size does not exceed the capacity. -/
theorem used_size_invariant_checked_api (alloc : Nat → Option (List Byte)) (c : Nat)
    (rb : RingBuffer) (h : construct alloc c = some rb)
    (ops : List Op) (hops : ∀ op ∈ ops, op.checked = true) :
    (rb.run ops).get_used_size ≤ (rb.run ops).get_capacity := by
  obtain ⟨-, hr, hw⟩ := construct_fresh alloc c rb h
  have h0 : rb.used_size_invariant := by
    simp only [used_size_invariant, get_used_size, get_capacity, hr, hw, wrapping_sub]
    omega
  exact run_keeps_used_size ops rb h0 hops

/-- A buffer of capacity 4 after an accepted write, a refused one, a read, a peek and
a clear. -/
theorem used_size_invariant_checked_api_witness :
    construct (fun n => some (List.replicate n 0)) 3
        = some ⟨some [0, 0, 0, 0], 4, 3, 0, 0⟩
    ∧ ((⟨some [0, 0, 0, 0], 4, 3, 0, 0⟩ : RingBuffer).run
          [.enqueue (some [1, 2, 3]) 3, .enqueue (some [4, 5]) 2,
            .dequeue (some [0, 0]) 2, .peek (some [0]) 1, .clear_buffer]).get_used_size
        ≤ ((⟨some [0, 0, 0, 0], 4, 3, 0, 0⟩ : RingBuffer).run
          [.enqueue (some [1, 2, 3]) 3, .enqueue (some [4, 5]) 2,
            .dequeue (some [0, 0]) 2, .peek (some [0]) 1, .clear_buffer]).get_capacity :=
  ⟨by decide,
    used_size_invariant_checked_api (fun n => some (List.replicate n 0)) 3
      ⟨some [0, 0, 0, 0], 4, 3, 0, 0⟩ (by decide) _ (by decide)⟩

/-- C5, as stated, fails: on an empty buffer of capacity 8, `advance_write_index(9)`
leaves a used size of 9, and `advance_read_index(1)` a used size of `2^64 - 1`. -/
theorem advance_breaks_used_size_invariant :
    (⟨some [0, 0, 0, 0, 0, 0, 0, 0], 8, 7, 0, 0⟩ : RingBuffer).used_size_invariant
    ∧ ¬ ((⟨some [0, 0, 0, 0, 0, 0, 0, 0], 8, 7, 0, 0⟩ : RingBuffer).step
          (.advance_write_index 9)).used_size_invariant
    ∧ ¬ ((⟨some [0, 0, 0, 0, 0, 0, 0, 0], 8, 7, 0, 0⟩ : RingBuffer).step
          (.advance_read_index 1)).used_size_invariant := by
  decide

/-- C5, amended. From a state where the used size is within the capacity, every
`enqueue`, `dequeue`, `peek` and `clear_buffer` call with any arguments leads to such
a state again, and so do `advance_write_index(n)` with `n` at most the free size and
`advance_read_index(n)` with `n` at most the used size. -/
theorem used_size_invariant_step (self : RingBuffer) (op : Op)
    (hinv : self.get_used_size ≤ self.get_capacity) (hop : op.in_bounds self) :
    (self.step op).get_used_size ≤ (self.step op).get_capacity :=
  step_keeps_used_size self op hinv hop

/-- Committing the three free bytes of a buffer that holds five of eight. -/
theorem used_size_invariant_step_witness :
    ((⟨some [0, 0, 0, 0, 0, 0, 0, 0], 8, 7, 2, 7⟩ : RingBuffer).step
        (.advance_write_index 3)).get_used_size
      ≤ ((⟨some [0, 0, 0, 0, 0, 0, 0, 0], 8, 7, 2, 7⟩ : RingBuffer).step
        (.advance_write_index 3)).get_capacity :=
  used_size_invariant_step ⟨some [0, 0, 0, 0, 0, 0, 0, 0], 8, 7, 2, 7⟩
    (.advance_write_index 3) (by decide) (by decide)

/-- C6. From whatever the constructor returns, after each call of any sequence of
`enqueue` and `dequeue` calls, used size plus free size is the capacity, and neither
exceeds the capacity. -/
theorem capacity_conservation (alloc : Nat → Option (List Byte)) (c : Nat)
    (rb : RingBuffer) (h : construct alloc c = some rb)
    (ops : List Op) (hops : ∀ op ∈ ops, op.transfer = true) (n : Nat) :
    (rb.run (ops.take n)).get_used_size + (rb.run (ops.take n)).get_free_size
        = (rb.run (ops.take n)).get_capacity
    ∧ (rb.run (ops.take n)).get_used_size ≤ (rb.run (ops.take n)).get_capacity
    ∧ (rb.run (ops.take n)).get_free_size ≤ (rb.run (ops.take n)).get_capacity := by
  obtain ⟨hcap, hr, hw⟩ := construct_fresh alloc c rb h
  have h0 : rb.used_size_invariant := by
    simp only [used_size_invariant, get_used_size, get_capacity, hr, hw, wrapping_sub]
    omega
  have hchk : ∀ op ∈ ops.take n, op.checked = true := by
    intro op hop
    have := hops op (List.mem_of_mem_take hop)
    cases op <;> simp_all [Op.transfer, Op.checked]
  have hinv := run_keeps_used_size (ops.take n) rb h0 hchk
  have hc := run_capacity (ops.take n) rb
  simp only [used_size_invariant, get_free_size, get_capacity] at *
  rw [hc] at hinv ⊢
  generalize (rb.run (ops.take n)).get_used_size = u at *
  simp only [wrapping_sub]
  omega

/-- Capacity 4: after a write of three bytes and a read of two, one byte is used and
three are free. -/
theorem capacity_conservation_witness :
    construct (fun n => some (List.replicate n 0)) 4
        = some ⟨some [0, 0, 0, 0], 4, 3, 0, 0⟩
    ∧ ((⟨some [0, 0, 0, 0], 4, 3, 0, 0⟩ : RingBuffer).run
          ([Op.enqueue (some [1, 2, 3]) 3, Op.dequeue (some [0, 0]) 2,
            Op.enqueue (some [4, 5, 6, 7]) 4].take 2)).get_used_size = 1
    ∧ ((⟨some [0, 0, 0, 0], 4, 3, 0, 0⟩ : RingBuffer).run
          ([Op.enqueue (some [1, 2, 3]) 3, Op.dequeue (some [0, 0]) 2,
            Op.enqueue (some [4, 5, 6, 7]) 4].take 2)).get_used_size
        + ((⟨some [0, 0, 0, 0], 4, 3, 0, 0⟩ : RingBuffer).run
          ([Op.enqueue (some [1, 2, 3]) 3, Op.dequeue (some [0, 0]) 2,
            Op.enqueue (some [4, 5, 6, 7]) 4].take 2)).get_free_size
        = ((⟨some [0, 0, 0, 0], 4, 3, 0, 0⟩ : RingBuffer).run
          ([Op.enqueue (some [1, 2, 3]) 3, Op.dequeue (some [0, 0]) 2,
            Op.enqueue (some [4, 5, 6, 7]) 4].take 2)).get_capacity :=
  ⟨by decide, by decide,
    (capacity_conservation (fun n => some (List.replicate n 0)) 4
      ⟨some [0, 0, 0, 0], 4, 3, 0, 0⟩ (by decide) _ (by decide) 2).1⟩

/-- C7, as stated, fails: a request of `2^63 + 1` bytes is outside the domain of
`std::bit_ceil`, no buffer is constructed, and no 64-bit capacity is a power of two
that large. -/
theorem construct_rounding_unrepresentable :
    construct (fun n => some (List.replicate n 0)) 9223372036854775809 = none
    ∧ ¬ ∃ rb : RingBuffer, rb.get_capacity < 18446744073709551616
        ∧ 9223372036854775809 ≤ rb.get_capacity ∧ ∃ k, rb.get_capacity = 2 ^ k := by
  refine ⟨by decide, ?_⟩
  rintro ⟨rb, hlt, hge, k, hk⟩
  rw [hk] at hlt hge
  by_cases h : k ≤ 63
  · have := (two_pow_le_of_le_63 k h).2
    omega
  · have := Nat.pow_le_pow_right (show 0 < 2 by decide) (show 64 ≤ k by omega)
    have e : (2 : Nat) ^ 64 = 18446744073709551616 := by norm_num
    omega

/-- C7, amended. For every requested capacity `c` with `1 ≤ c ≤ 2^63` the constructor
returns a buffer; it asks the allocator for `2^k` bytes, the smallest power of two
that is at least `c` (so `c ≤ 2^k < 2c`), and keeps what the allocator gives; when
the allocation succeeds the capacity is `2^k`, the mask is the capacity minus one,
both counters are 0, the used size is 0 and the free size is the capacity. -/
theorem construct_capacity_rounding (alloc : Nat → Option (List Byte)) (c : Nat)
    (h1 : 1 ≤ c) (h2 : c ≤ 9223372036854775808) :
    ∃ k rb, construct alloc c = some rb
      ∧ rb.buffer = alloc (2 ^ k)
      ∧ c ≤ 2 ^ k ∧ (∀ m, c ≤ 2 ^ m → 2 ^ k ≤ 2 ^ m) ∧ 2 ^ k < 2 * c
      ∧ (rb.buffer ≠ none →
          rb.get_capacity = 2 ^ k ∧ rb.mask = rb.get_capacity - 1
          ∧ rb.read_index = 0 ∧ rb.write_index = 0
          ∧ rb.get_used_size = 0 ∧ rb.get_free_size = rb.get_capacity) := by
  obtain ⟨k, hk, hle, hmin, heq⟩ := construct_eq alloc c h2
  have hp := two_pow_le_of_le_63 k hk
  have hsmall : ∀ m, c ≤ 2 ^ m → 2 ^ k ≤ 2 ^ m := by
    intro m hm
    rcases hmin with h0 | hlt
    · subst h0
      simpa using Nat.one_le_two_pow
    · have hlt2 : 2 ^ (k - 1) < 2 ^ m := Nat.lt_of_lt_of_le hlt hm
      have := (Nat.pow_lt_pow_iff_right (show 1 < 2 by decide)).mp hlt2
      exact Nat.pow_le_pow_right (by decide) (by omega)
  have hlt2c : 2 ^ k < 2 * c := by
    rcases hmin with h0 | hlt
    · subst h0
      simp only [Nat.pow_zero]
      omega
    · have e : 2 ^ k = 2 * 2 ^ (k - 1) := by
        have hk1 : k = (k - 1) + 1 := by
          rcases Nat.eq_zero_or_pos k with h0 | hpos
          · subst h0
            simp only [Nat.zero_sub, Nat.pow_zero] at hlt
            omega
          · omega
        conv_lhs => rw [hk1, Nat.pow_succ, Nat.mul_comm]
      omega
  cases ha : alloc (2 ^ k) with
  | none =>
    rw [ha] at heq
    exact ⟨k, _, heq, by simp [ha], hle, hsmall, hlt2c, by simp⟩
  | some mem =>
    rw [ha] at heq
    refine ⟨k, _, heq, by simp [ha], hle, hsmall, hlt2c, ?_⟩
    intro _
    refine ⟨rfl, rfl, rfl, rfl, ?_, ?_⟩
    · simp only [get_used_size, wrapping_sub]
    · simp only [get_free_size, get_used_size, get_capacity, wrapping_sub]
      omega

/-- A request of 5 bytes. -/
theorem construct_capacity_rounding_witness :
    ∃ k rb, construct (fun n => some (List.replicate n 0)) 5 = some rb
      ∧ rb.buffer = (fun n => some (List.replicate n 0)) (2 ^ k)
      ∧ 5 ≤ 2 ^ k ∧ (∀ m, 5 ≤ 2 ^ m → 2 ^ k ≤ 2 ^ m) ∧ 2 ^ k < 2 * 5
      ∧ (rb.buffer ≠ none →
          rb.get_capacity = 2 ^ k ∧ rb.mask = rb.get_capacity - 1
          ∧ rb.read_index = 0 ∧ rb.write_index = 0
          ∧ rb.get_used_size = 0 ∧ rb.get_free_size = rb.get_capacity) :=
  construct_capacity_rounding (fun n => some (List.replicate n 0)) 5
    (by decide) (by decide)

/-- C8. A request of 0 bytes, the allocation succeeding, gives a usable buffer of
capacity 1 and mask 0: it takes one byte and no more, is then full, and a `dequeue`
of one byte hands that byte back and leaves the buffer empty. -/
theorem construct_zero_capacity (alloc : Nat → Option (List Byte)) (m0 b d0 : Byte)
    (halloc : alloc 1 = some [m0]) :
    ∃ rb, construct alloc 0 = some rb
      ∧ rb.buffer ≠ none ∧ rb.get_capacity = 1 ∧ rb.mask = 0
      ∧ rb.get_used_size = 0 ∧ rb.get_free_size = 1
      ∧ (∀ src size, 2 ≤ size → (rb.enqueue src size).ok = false)
      ∧ (rb.enqueue (some [b]) 1).ok = true
      ∧ (rb.enqueue (some [b]) 1).self.get_used_size = 1
      ∧ (rb.enqueue (some [b]) 1).self.get_free_size = 0
      ∧ (∀ src size, 1 ≤ size →
          ((rb.enqueue (some [b]) 1).self.enqueue src size).ok = false)
      ∧ ((rb.enqueue (some [b]) 1).self.dequeue (some [d0]) 1).ok = true
      ∧ ((rb.enqueue (some [b]) 1).self.dequeue (some [d0]) 1).dst = some [b]
      ∧ ((rb.enqueue (some [b]) 1).self.dequeue (some [d0]) 1).self.get_used_size = 0 := by
  have hc : construct alloc 0 = some ⟨some [m0], 1, 0, 0, 0⟩ := by
    have hb : bit_ceil 0 = some 1 := by decide
    have hm : wrapping_sub 1 1 = 0 := by decide
    simp only [construct, hb, halloc, hm]
  have he : (⟨some [m0], 1, 0, 0, 0⟩ : RingBuffer).enqueue (some [b]) 1
      = ⟨true, ⟨some [b], 1, 0, 0, 1⟩⟩ := by
    simp [enqueue, get_free_size, get_used_size, wrapping_sub, wrapping_add, copy_in,
      space_to_end, first_size, second_size, memcpy]
  have hd : (⟨some [b], 1, 0, 0, 1⟩ : RingBuffer).dequeue (some [d0]) 1
      = ⟨true, ⟨some [b], 1, 0, 1, 1⟩, some [b]⟩ := by
    simp [dequeue, get_used_size, wrapping_sub, wrapping_add, copy_out,
      space_to_end, first_size, second_size, memcpy]
  have hf0 : (⟨some [m0], 1, 0, 0, 0⟩ : RingBuffer).get_free_size = 1 := by
    simp [get_used_size, get_free_size, wrapping_sub]
  have hu0 : (⟨some [m0], 1, 0, 0, 0⟩ : RingBuffer).get_used_size = 0 := by
    simp [get_used_size, wrapping_sub]
  have hf1 : (⟨some [b], 1, 0, 0, 1⟩ : RingBuffer).get_free_size = 0 := by
    simp [get_used_size, get_free_size, wrapping_sub]
  have hu1 : (⟨some [b], 1, 0, 0, 1⟩ : RingBuffer).get_used_size = 1 := by
    simp [get_used_size, wrapping_sub]
  have hu2 : (⟨some [b], 1, 0, 1, 1⟩ : RingBuffer).get_used_size = 0 := by
    simp [get_used_size, wrapping_sub]
  refine ⟨_, hc, by simp, rfl, rfl, hu0, hf0, ?_, ?_⟩
  · intro src size hsz
    apply enqueue_refused
    rw [hf0]
    omega
  · rw [he, hd]
    refine ⟨rfl, hu1, hf1, ?_, rfl, rfl, hu2⟩
    intro src size hsz
    apply enqueue_refused
    show (⟨some [b], 1, 0, 0, 1⟩ : RingBuffer).get_free_size < size
    rw [hf1]
    omega

/-- The byte 42 through a buffer requested with capacity 0. -/
theorem construct_zero_capacity_witness :
    ∃ rb, construct (fun n => some (List.replicate n 0)) 0 = some rb
      ∧ rb.get_capacity = 1
      ∧ ((rb.enqueue (some [42]) 1).self.dequeue (some [0]) 1).dst = some [42] := by
  obtain ⟨rb, h1, -, h2, -, -, -, -, -, -, -, -, -, h3, -⟩ :=
    construct_zero_capacity (fun n => some (List.replicate n 0)) 0 42 0 rfl
  exact ⟨rb, h1, h2, h3⟩

/-! ## Where the bytes go -/

/-- An in-range read with default is the byte itself. -/
theorem some_getD_of_lt (l : List Byte) (i : Nat) (h : i < l.length) :
    some (l.getD i 0) = l[i]? := by
  rw [List.getD_eq_getElem?_getD, List.getElem?_eq_getElem h]
  rfl

/-- The storage after the two copies of `enqueue`, byte by byte: the wrapped span
`[0, second_size)` holds the tail of the source, the span
`[offset, offset + first_size)` its head, and every other byte is as before. -/
theorem copy_in_getElem? (self : RingBuffer) (buf src : List Byte) (size j : Nat) :
    (self.copy_in buf src size)[j]? =
      if j < second_size size (first_size (self.space_to_end self.write_index) size)
          ∧ j < buf.length then
        some (src.getD (first_size (self.space_to_end self.write_index) size + j) 0)
      else if (self.write_index &&& self.mask) ≤ j
          ∧ j < (self.write_index &&& self.mask)
                + first_size (self.space_to_end self.write_index) size
          ∧ j < buf.length then
        some (src.getD (j - (self.write_index &&& self.mask)) 0)
      else buf[j]? := by
  simp only [copy_in]
  split
  · simp only [memcpy_getElem?, memcpy_length, Nat.zero_le, true_and, Nat.zero_add,
      Nat.sub_zero]
  · rename_i h
    have h2 : second_size size (first_size (self.space_to_end self.write_index) size) = 0 := by
      simpa using h
    simp only [memcpy_getElem?, h2, Nat.not_lt_zero, false_and, if_false, Nat.zero_add]

/-- The destination after the two copies of `dequeue` and `peek`, byte by byte: its
first `first_size` bytes come from the storage at the read offset on, the next
`second_size` from the start of the storage, and every other byte is as before. -/
theorem copy_out_getElem? (self : RingBuffer) (buf dst : List Byte) (size i : Nat) :
    (self.copy_out buf dst size)[i]? =
      if first_size (self.space_to_end self.read_index) size ≤ i
          ∧ i < first_size (self.space_to_end self.read_index) size
                + second_size size (first_size (self.space_to_end self.read_index) size)
          ∧ i < dst.length then
        some (buf.getD (i - first_size (self.space_to_end self.read_index) size) 0)
      else if i < first_size (self.space_to_end self.read_index) size ∧ i < dst.length then
        some (buf.getD ((self.read_index &&& self.mask) + i) 0)
      else dst[i]? := by
  simp only [copy_out]
  split
  · simp only [memcpy_getElem?, memcpy_length, Nat.zero_le, true_and, Nat.zero_add,
      Nat.sub_zero]
  · rename_i h
    have h2 : second_size size (first_size (self.space_to_end self.read_index) size) = 0 := by
      simpa using h
    have e : ∀ a b : Nat, ¬ (a ≤ b ∧ b < a + 0 ∧ b < dst.length) := by
      intro a b; omega
    simp only [memcpy_getElem?, h2, e, if_false, Nat.zero_le, true_and, Nat.zero_add,
      Nat.sub_zero]

/-- The copies of `enqueue` keep the length of the storage. -/
theorem copy_in_length (self : RingBuffer) (buf src : List Byte) (size : Nat) :
    (self.copy_in buf src size).length = buf.length := by
  simp only [copy_in]
  split <;> simp only [memcpy_length]

/-- The copies of `dequeue` and `peek` keep the length of the destination. -/
theorem copy_out_length (self : RingBuffer) (buf dst : List Byte) (size : Nat) :
    (self.copy_out buf dst size).length = dst.length := by
  simp only [copy_out]
  split <;> simp only [memcpy_length]

/-- The geometry of a transfer of `size ≤ capacity` bytes at counter value `index`,
for a power-of-two capacity with its mask: the offset is inside the storage, the first
span ends at or before the physical end, the two spans add up to `size`, and the
second span ends at or before the offset. -/
theorem span_geometry (self : RingBuffer) (k : Nat) (hk : k ≤ 63)
    (hcap : self.capacity = 2 ^ k) (hmask : self.mask = self.capacity - 1)
    (index size : Nat) (hsize : size ≤ self.capacity) :
    (index &&& self.mask) = index % self.capacity
    ∧ (index &&& self.mask) < self.capacity
    ∧ self.space_to_end index = self.capacity - (index &&& self.mask)
    ∧ (index &&& self.mask) + first_size (self.space_to_end index) size ≤ self.capacity
    ∧ first_size (self.space_to_end index) size
        + second_size size (first_size (self.space_to_end index) size) = size
    ∧ second_size size (first_size (self.space_to_end index) size)
        ≤ (index &&& self.mask) := by
  have hp := two_pow_le_of_le_63 k hk
  have hoff : (index &&& self.mask) = index % self.capacity := by
    rw [hmask, hcap, Nat.and_pow_two_sub_one_eq_mod]
  have hlt : index % self.capacity < self.capacity := by
    apply Nat.mod_lt
    omega
  rw [hoff]
  generalize index % self.capacity = off at *
  rw [← hcap] at hp
  have hs : self.space_to_end index = self.capacity - off := by
    simp only [space_to_end, hoff, wrapping_sub]
    omega
  rw [hs]
  refine ⟨rfl, hlt, rfl, ?_, ?_, ?_⟩ <;>
    simp only [first_size, second_size, wrapping_sub] <;> split <;> omega

/-- Reading `size` bytes at the counter value at which `src` was just written gives
`src` back: byte `i` of the destination is byte `i` of `src` for `i < size`, and is
untouched beyond.  The reader `s1` shares capacity and mask with the writer `self`
and its `read_index` is the writer's `write_index`. -/
theorem copy_out_copy_in (self s1 : RingBuffer) (k : Nat) (buf src dst : List Byte)
    (size : Nat) (hk : k ≤ 63) (hcap : self.capacity = 2 ^ k)
    (hmask : self.mask = self.capacity - 1) (hlen : buf.length = self.capacity)
    (hc1 : s1.capacity = self.capacity) (hm1 : s1.mask = self.mask)
    (hr1 : s1.read_index = self.write_index)
    (hsize : size ≤ self.capacity) (hsrc : size ≤ src.length) (hdst : size ≤ dst.length)
    (i : Nat) :
    (s1.copy_out (self.copy_in buf src size) dst size)[i]? =
      if i < size then src[i]? else dst[i]? := by
  obtain ⟨-, hofflt, -, hend, hsum, hsec⟩ :=
    span_geometry self k hk hcap hmask self.write_index size hsize
  have hsp : s1.space_to_end s1.read_index = self.space_to_end self.write_index := by
    simp only [space_to_end, hc1, hm1, hr1]
  rw [copy_out_getElem?, hsp, hr1, hm1]
  simp only [List.getD_eq_getElem?_getD, copy_in_getElem?]
  generalize first_size (self.space_to_end self.write_index) size = F at *
  generalize second_size size F = S at *
  generalize self.write_index &&& self.mask = off at *
  by_cases hi : i < size
  · rw [if_pos hi]
    by_cases hF : i < F
    · have c1 : ¬ (F ≤ i ∧ i < F + S ∧ i < dst.length) := by omega
      have c2 : i < F ∧ i < dst.length := by omega
      have c3 : ¬ (off + i < S ∧ off + i < buf.length) := by omega
      have c4 : off ≤ off + i ∧ off + i < off + F ∧ off + i < buf.length := by omega
      have e : off + i - off = i := by omega
      rw [if_neg c1, if_pos c2, if_neg c3, if_pos c4, e, Option.getD_some,
        List.getElem?_eq_getElem (show i < src.length by omega),
        Option.getD_some]
    · have c1 : F ≤ i ∧ i < F + S ∧ i < dst.length := by omega
      have c3 : i - F < S ∧ i - F < buf.length := by omega
      have e : F + (i - F) = i := by omega
      rw [if_pos c1, if_pos c3, e, Option.getD_some,
        List.getElem?_eq_getElem (show i < src.length by omega),
        Option.getD_some]
  · have c1 : ¬ (F ≤ i ∧ i < F + S ∧ i < dst.length) := by omega
    have c2 : ¬ (i < F ∧ i < dst.length) := by omega
    rw [if_neg hi, if_neg c1, if_neg c2]

/-- A region that agrees with `src` on its first `src.length` bytes and with `dst`
beyond starts with `src` and ends like `dst`. -/
theorem take_drop_of_getElem? (out src dst : List Byte)
    (h : ∀ i, out[i]? = if i < src.length then src[i]? else dst[i]?) :
    out.take src.length = src ∧ out.drop src.length = dst.drop src.length := by
  constructor
  · apply List.ext_getElem?
    intro i
    rw [List.getElem?_take, h]
    by_cases hi : i < src.length
    · rw [if_pos hi, if_pos hi]
    · rw [if_neg hi, List.getElem?_eq_none (Nat.le_of_not_lt hi)]
  · apply List.ext_getElem?
    intro i
    rw [List.getElem?_drop, List.getElem?_drop, h, if_neg (by omega)]

/-- C1. Round trip, wrap boundary included: on a buffer with storage of power-of-two
length `capacity`, `mask = capacity - 1` and `read_index = write_index` (any counter
value), for every byte sequence `B` with `1 ≤ len(B) ≤ capacity`, `enqueue(B, len(B))`
succeeds, the following `dequeue(dst, len(B))` succeeds, `dst` then starts with
exactly `B` (and is untouched beyond), and the buffer is empty again. -/
theorem enqueue_dequeue_round_trip (self : RingBuffer) (k : Nat) (buf B d : List Byte)
    (hk : k ≤ 63) (hcap : self.capacity = 2 ^ k) (hmask : self.mask = self.capacity - 1)
    (hbuf : self.buffer = some buf) (hlen : buf.length = self.capacity)
    (hidx : self.read_index = self.write_index)
    (hB1 : 1 ≤ B.length) (hB2 : B.length ≤ self.capacity) (hd : B.length ≤ d.length) :
    (self.enqueue (some B) B.length).ok = true
    ∧ ((self.enqueue (some B) B.length).self.dequeue (some d) B.length).ok = true
    ∧ (∃ out, ((self.enqueue (some B) B.length).self.dequeue (some d) B.length).dst
          = some out
        ∧ out.length = d.length
        ∧ out.take B.length = B ∧ out.drop B.length = d.drop B.length)
    ∧ ((self.enqueue (some B) B.length).self.dequeue (some d) B.length).self.get_used_size
        = 0 := by
  have hp := two_pow_le_of_le_63 k hk
  rw [← hcap] at hp
  have hs0 : B.length ≠ 0 := by omega
  have hfree : ¬ self.get_free_size < B.length := by
    simp only [get_free_size, get_used_size, hidx, wrapping_sub]
    omega
  have he : self.enqueue (some B) B.length
      = ⟨true, { self with buffer := some (self.copy_in buf B B.length)
                           write_index := wrapping_add self.write_index B.length }⟩ := by
    simp only [enqueue, hs0, hbuf, hfree, if_false]
  rw [he]
  have hused : ¬ ({ self with buffer := some (self.copy_in buf B B.length)
                              write_index := wrapping_add self.write_index B.length }
      : RingBuffer).get_used_size < B.length := by
    simp only [get_used_size, hidx, wrapping_sub, wrapping_add]
    omega
  simp only [dequeue, hs0, hused, if_false, true_and]
  refine ⟨⟨_, rfl, copy_out_length _ _ _ _, ?_⟩, ?_⟩
  · apply take_drop_of_getElem?
    intro i
    exact copy_out_copy_in self _ k buf B d B.length hk hcap hmask hlen rfl rfl hidx hB2
      (Nat.le_refl _) hd i
  · simp only [get_used_size, hidx, wrapping_sub, wrapping_add]
    omega

/-- Capacity 8 after `enqueue` 5 and `dequeue` 5 (both counters at 5): six bytes go in
as 3 + 3 across the physical end and come back out unchanged. -/
theorem enqueue_dequeue_round_trip_witness :
    (∃ rb, construct (fun n => some (List.replicate n 0)) 8 = some rb
      ∧ ((rb.enqueue (some [1, 2, 3, 4, 5]) 5).self.dequeue (some [0, 0, 0, 0, 0]) 5).self
          = ⟨some [1, 2, 3, 4, 5, 0, 0, 0], 8, 7, 5, 5⟩)
    ∧ first_size ((⟨some [1, 2, 3, 4, 5, 0, 0, 0], 8, 7, 5, 5⟩ : RingBuffer).space_to_end 5) 6
        = 3
    ∧ second_size 6 3 = 3
    ∧ ((⟨some [1, 2, 3, 4, 5, 0, 0, 0], 8, 7, 5, 5⟩ : RingBuffer).enqueue
          (some [11, 12, 13, 14, 15, 16]) 6).self.buffer
        = some [14, 15, 16, 4, 5, 11, 12, 13]
    ∧ ((⟨some [1, 2, 3, 4, 5, 0, 0, 0], 8, 7, 5, 5⟩ : RingBuffer).enqueue
          (some [11, 12, 13, 14, 15, 16]) 6).ok = true
    ∧ (((⟨some [1, 2, 3, 4, 5, 0, 0, 0], 8, 7, 5, 5⟩ : RingBuffer).enqueue
          (some [11, 12, 13, 14, 15, 16]) 6).self.dequeue (some [0, 0, 0, 0, 0, 0]) 6).ok
        = true
    ∧ (∃ out, (((⟨some [1, 2, 3, 4, 5, 0, 0, 0], 8, 7, 5, 5⟩ : RingBuffer).enqueue
            (some [11, 12, 13, 14, 15, 16]) 6).self.dequeue
              (some [0, 0, 0, 0, 0, 0]) 6).dst = some out
        ∧ out.length = 6
        ∧ out.take 6 = [11, 12, 13, 14, 15, 16]
        ∧ out.drop 6 = [])
    ∧ (((⟨some [1, 2, 3, 4, 5, 0, 0, 0], 8, 7, 5, 5⟩ : RingBuffer).enqueue
          (some [11, 12, 13, 14, 15, 16]) 6).self.dequeue
            (some [0, 0, 0, 0, 0, 0]) 6).self.get_used_size = 0 :=
  ⟨⟨⟨some [0, 0, 0, 0, 0, 0, 0, 0], 8, 7, 0, 0⟩, by decide, by decide⟩,
    by decide, by decide, by decide,
    enqueue_dequeue_round_trip ⟨some [1, 2, 3, 4, 5, 0, 0, 0], 8, 7, 5, 5⟩ 3
      [1, 2, 3, 4, 5, 0, 0, 0] [11, 12, 13, 14, 15, 16] [0, 0, 0, 0, 0, 0]
      (by decide) rfl rfl rfl rfl rfl (by decide) (by decide) (by decide)⟩

/-! ## Peek -/

/-- Copying out twice into the same region gives what copying out once gives. -/
theorem copy_out_idem (self : RingBuffer) (buf dst : List Byte) (size : Nat) :
    self.copy_out buf (self.copy_out buf dst size) size = self.copy_out buf dst size := by
  apply List.ext_getElem?
  intro i
  rw [copy_out_getElem? self buf (self.copy_out buf dst size), copy_out_length,
    copy_out_getElem? self buf dst]
  split
  · rfl
  · split <;> rfl

/-- A second `peek` into what the first one left gives the same outcome. -/
theorem peek_peek (self : RingBuffer) (dst : Option (List Byte)) (size : Nat) :
    (self.peek dst size).self.peek (self.peek dst size).dst size = self.peek dst size := by
  by_cases hs : size = 0
  · simp [peek, hs]
  · cases hb : self.buffer <;> cases dst <;> simp only [peek, hs, hb, if_false]
    by_cases hu : self.get_used_size < size
    · simp only [hu, if_true, hs, hb, if_false]
    · simp only [hu, if_false, hs, hb, copy_out_idem]

/-- C9. `peek` leaves the whole buffer as it was, returns the flag `dequeue` would
return and writes the bytes `dequeue` would write; any number of repeated `peek`
calls of one size give the same flag and the same bytes as the first, and none
changes the buffer or its used size. -/
theorem peek_observes (self : RingBuffer) (dst : Option (List Byte)) (size : Nat) :
    (self.peek dst size).self = self
    ∧ (self.peek dst size).ok = (self.dequeue dst size).ok
    ∧ (self.peek dst size).dst = (self.dequeue dst size).dst
    ∧ ∀ n, (self.peek_repeat dst size n).ok = (self.peek dst size).ok
        ∧ (self.peek_repeat dst size n).dst = (self.peek dst size).dst
        ∧ (self.peek_repeat dst size n).self = self
        ∧ (self.peek_repeat dst size n).self.get_used_size = self.get_used_size := by
  have h1 : (self.peek dst size).self = self := by
    simp only [peek]
    repeat (first | rfl | split)
  have h2 : (self.peek dst size).ok = (self.dequeue dst size).ok
      ∧ (self.peek dst size).dst = (self.dequeue dst size).dst := by
    simp only [peek, dequeue]
    repeat (first | exact ⟨rfl, rfl⟩ | split)
  have h3 : ∀ n, self.peek_repeat dst size n = self.peek dst size := by
    intro n
    induction n with
    | zero => rfl
    | succ n ih => rw [peek_repeat, ih, peek_peek]
  refine ⟨h1, h2.1, h2.2, ?_⟩
  intro n
  rw [h3 n, h1]
  exact ⟨rfl, rfl, rfl, rfl⟩

end RingBuffer

namespace RingBuffer

/-! ## Moves, clearing and failed allocations -/

/-- Without storage every transfer of a positive size is refused and nothing
changes. -/
theorem transfers_refused_of_no_storage (self : RingBuffer) (hb : self.buffer = none)
    (ptr : Option (List Byte)) (size : Nat) (hs : 0 < size) :
    self.enqueue ptr size = ⟨false, self⟩
    ∧ self.dequeue ptr size = ⟨false, self, ptr⟩
    ∧ self.peek ptr size = ⟨false, self, ptr⟩ := by
  have h0 : size ≠ 0 := by omega
  simp only [enqueue, dequeue, peek, h0, hb, if_false, and_self]

/-- C11. Moving `A` into a distinct buffer, by construction or by assignment, gives
the destination exactly the capacity, mask, counters and storage `A` had, hence its
used size and whatever a `dequeue` returned from `A`; `A` is left with capacity 0,
used size 0 and no storage, and refuses every `enqueue`, `dequeue` and `peek` of a
positive size; assigning a buffer to itself changes nothing. -/
theorem move_semantics (A B : RingBuffer) :
    ((move_construct A).1 = A ∧ (move_assign B A false).1 = A)
    ∧ ((move_construct A).1.get_used_size = A.get_used_size
        ∧ (move_assign B A false).1.get_used_size = A.get_used_size)
    ∧ (∀ dst size, (move_construct A).1.dequeue dst size = A.dequeue dst size
        ∧ (move_assign B A false).1.dequeue dst size = A.dequeue dst size)
    ∧ ((move_construct A).2.get_capacity = 0 ∧ (move_construct A).2.get_used_size = 0
        ∧ (move_construct A).2.buffer = none)
    ∧ ((move_assign B A false).2.get_capacity = 0
        ∧ (move_assign B A false).2.get_used_size = 0
        ∧ (move_assign B A false).2.buffer = none)
    ∧ (∀ ptr size, 0 < size →
        ((move_construct A).2.enqueue ptr size).ok = false
        ∧ ((move_construct A).2.dequeue ptr size).ok = false
        ∧ ((move_construct A).2.peek ptr size).ok = false
        ∧ ((move_assign B A false).2.enqueue ptr size).ok = false
        ∧ ((move_assign B A false).2.dequeue ptr size).ok = false
        ∧ ((move_assign B A false).2.peek ptr size).ok = false)
    ∧ (∀ other, move_assign B other true = (B, B)) := by
  have e1 : (move_construct A).1 = A := rfl
  have e2 : (move_assign B A false).1 = A := rfl
  have e3 : (move_assign B A false).2 = (move_construct A).2 := rfl
  have hb : (move_construct A).2.buffer = none := rfl
  have hu : (move_construct A).2.get_used_size = 0 := by
    simp only [move_construct, RingBuffer.clear_buffer, get_used_size, wrapping_sub]
  rw [e1, e2, e3]
  refine ⟨⟨rfl, rfl⟩, ⟨rfl, rfl⟩, fun _ _ => ⟨rfl, rfl⟩, ⟨rfl, hu, hb⟩, ⟨rfl, hu, hb⟩, ?_,
    fun _ => rfl⟩
  intro ptr size hs
  obtain ⟨h1, h2, h3⟩ := transfers_refused_of_no_storage _ hb ptr size hs
  rw [h1, h2, h3]
  exact ⟨rfl, rfl, rfl, rfl, rfl, rfl⟩

/-- Moving out a buffer that holds three bytes. -/
theorem move_semantics_witness :
    (move_construct ⟨some [1, 2, 3, 0], 4, 3, 0, 3⟩).1 = ⟨some [1, 2, 3, 0], 4, 3, 0, 3⟩
    ∧ (move_construct ⟨some [1, 2, 3, 0], 4, 3, 0, 3⟩).2 = ⟨none, 0, 3, 0, 0⟩
    ∧ ((move_construct ⟨some [1, 2, 3, 0], 4, 3, 0, 3⟩).2.enqueue (some [9]) 1).ok = false :=
  ⟨(move_semantics ⟨some [1, 2, 3, 0], 4, 3, 0, 3⟩ ⟨none, 0, 0, 0, 0⟩).1.1, by decide,
    ((move_semantics ⟨some [1, 2, 3, 0], 4, 3, 0, 3⟩ ⟨none, 0, 0, 0, 0⟩).2.2.2.2.2.1
      (some [9]) 1 (by decide)).1⟩

/-- C16. `clear_buffer` sets both counters to 0 and leaves capacity, mask and the
storage, every byte of it, as they were; afterwards the used size is 0 and the free
size is the capacity. -/
theorem clear_buffer_effect (self : RingBuffer)
    (hcap : self.capacity < 18446744073709551616) :
    self.clear_buffer.read_index = 0 ∧ self.clear_buffer.write_index = 0
    ∧ self.clear_buffer.capacity = self.capacity ∧ self.clear_buffer.mask = self.mask
    ∧ self.clear_buffer.buffer = self.buffer
    ∧ self.clear_buffer.get_used_size = 0
    ∧ self.clear_buffer.get_free_size = self.clear_buffer.get_capacity := by
  refine ⟨rfl, rfl, rfl, rfl, rfl, ?_, ?_⟩
  · simp only [RingBuffer.clear_buffer, get_used_size, wrapping_sub]
  · simp only [RingBuffer.clear_buffer, get_free_size, get_used_size, get_capacity,
      wrapping_sub]
    omega

/-- Clearing a buffer that holds bytes 5 to 10 of a stream. -/
theorem clear_buffer_effect_witness :
    (⟨some [8, 9, 3, 4, 5, 6, 7, 0], 8, 7, 5, 10⟩ : RingBuffer).clear_buffer
        = ⟨some [8, 9, 3, 4, 5, 6, 7, 0], 8, 7, 0, 0⟩
    ∧ (⟨some [8, 9, 3, 4, 5, 6, 7, 0], 8, 7, 5, 10⟩ : RingBuffer).clear_buffer.get_free_size
        = (⟨some [8, 9, 3, 4, 5, 6, 7, 0], 8, 7, 5, 10⟩ : RingBuffer).clear_buffer.get_capacity :=
  ⟨by decide,
    (clear_buffer_effect ⟨some [8, 9, 3, 4, 5, 6, 7, 0], 8, 7, 5, 10⟩ (by decide)).2.2.2.2.2.2⟩

/-- A buffer without storage and with both counters at 0 is left as it is by every
call of the checked interface. -/
theorem step_of_no_storage (self : RingBuffer) (hb : self.buffer = none)
    (hr : self.read_index = 0) (hw : self.write_index = 0) (op : Op)
    (hop : op.checked = true) : self.step op = self := by
  cases op with
  | enqueue src size =>
    simp only [step, enqueue, hb]
    split <;> rfl
  | dequeue dst size =>
    simp only [step, dequeue, hb]
    split <;> rfl
  | peek dst size =>
    simp only [step, peek, hb]
    split <;> rfl
  | clear_buffer =>
    cases self
    simp only [step, RingBuffer.clear_buffer] at *
    simp only [hr, hw]
  | advance_read_index size => simp [Op.checked] at hop
  | advance_write_index size => simp [Op.checked] at hop

/-- A buffer without storage and with both counters at 0 is left as it is by every
sequence of calls of the checked interface. -/
theorem run_of_no_storage (ops : List Op) (self : RingBuffer) (hb : self.buffer = none)
    (hr : self.read_index = 0) (hw : self.write_index = 0)
    (hops : ∀ op ∈ ops, op.checked = true) : self.run ops = self := by
  induction ops with
  | nil => rfl
  | cons op ops ih =>
    show (self.step op).run ops = self
    rw [step_of_no_storage self hb hr hw op (hops op (List.mem_cons_self _ _))]
    exact ih (fun o ho => hops o (List.mem_cons_of_mem _ ho))


/-- A constructed buffer without storage has capacity 0. -/
theorem construct_no_storage (alloc : Nat → Option (List Byte)) (c : Nat) (rb : RingBuffer)
    (h : construct alloc c = some rb) (hb : rb.buffer = none) : rb.capacity = 0 := by
  by_cases hc : c ≤ 9223372036854775808
  · obtain ⟨k, -, -, -, heq⟩ := construct_eq alloc c hc
    rw [heq] at h
    cases ha : alloc (2 ^ k) <;> rw [ha] at h <;> simp only [Option.some.injEq] at h <;>
      subst h
    · rfl
    · simp at hb
  · simp [construct, bit_ceil, hc] at h

/-- C14. A buffer whose construction could not obtain storage exists for every request
of at most `2^63` bytes; for every request, such a buffer reports capacity 0, used
size 0 and free size 0, refuses every `enqueue`, `dequeue` and `peek` of a positive
size without changing anything, and returns null direct pointers; all of this still
holds after any sequence of `enqueue`, `dequeue`, `peek` and `clear_buffer` calls. -/
theorem allocation_failure_degradation (alloc : Nat → Option (List Byte)) (c : Nat) :
    (c ≤ 9223372036854775808 → (∀ n, alloc n = none) →
      ∃ rb, construct alloc c = some rb ∧ rb.buffer = none)
    ∧ (∀ rb, construct alloc c = some rb → rb.buffer = none →
        ∀ ops : List Op, (∀ op ∈ ops, op.checked = true) →
          (rb.run ops).buffer = none
          ∧ (rb.run ops).get_capacity = 0
          ∧ (rb.run ops).get_used_size = 0
          ∧ (rb.run ops).get_free_size = 0
          ∧ (rb.run ops).get_direct_enqueue_ptr = none
          ∧ (rb.run ops).get_direct_dequeue_ptr = none
          ∧ ∀ ptr size, 0 < size →
              (rb.run ops).enqueue ptr size = ⟨false, rb.run ops⟩
              ∧ (rb.run ops).dequeue ptr size = ⟨false, rb.run ops, ptr⟩
              ∧ (rb.run ops).peek ptr size = ⟨false, rb.run ops, ptr⟩) := by
  constructor
  · intro hc halloc
    obtain ⟨k, -, -, -, heq⟩ := construct_eq alloc c hc
    rw [halloc] at heq
    exact ⟨_, heq, rfl⟩
  · intro rb h hb ops hops
    obtain ⟨-, hr, hw⟩ := construct_fresh alloc c rb h
    have hcap := construct_no_storage alloc c rb h hb
    rw [run_of_no_storage ops rb hb hr hw hops]
    refine ⟨hb, hcap, ?_, ?_, ?_, ?_, ?_⟩
    · simp only [get_used_size, hr, hw, wrapping_sub]
    · simp only [get_free_size, get_used_size, hr, hw, hcap, wrapping_sub]
    · simp only [get_direct_enqueue_ptr, hb]
    · simp only [get_direct_dequeue_ptr, hb]
    · intro ptr size hs
      exact transfers_refused_of_no_storage rb hb ptr size hs

/-- A request of 8 bytes that the allocator turns down, then a write, a read and a
clear. -/
theorem allocation_failure_degradation_witness :
    construct (fun _ => none) 8 = some ⟨none, 0, 7, 0, 0⟩
    ∧ ((⟨none, 0, 7, 0, 0⟩ : RingBuffer).run
          [.enqueue (some [1, 2]) 2, .dequeue (some [0]) 1, .clear_buffer]).get_capacity = 0
    ∧ ((⟨none, 0, 7, 0, 0⟩ : RingBuffer).run
          [.enqueue (some [1, 2]) 2, .dequeue (some [0]) 1, .clear_buffer]).enqueue
            (some [5]) 1
        = ⟨false, (⟨none, 0, 7, 0, 0⟩ : RingBuffer).run
          [.enqueue (some [1, 2]) 2, .dequeue (some [0]) 1, .clear_buffer]⟩ :=
  have h := (allocation_failure_degradation (fun _ => none) 8).2 ⟨none, 0, 7, 0, 0⟩
    (by decide) rfl [.enqueue (some [1, 2]) 2, .dequeue (some [0]) 1, .clear_buffer]
    (by decide)
  ⟨by decide, h.2.1, (h.2.2.2.2.2.2 (some [5]) 1 (by decide)).1⟩


/-! ## Offsets, spans and direct access -/

/-- What the invariants say about a buffer that has storage. -/
theorem invariants_some (self : RingBuffer) (buf : List Byte) (hb : self.buffer = some buf)
    (h : self.invariants) :
    ∃ k, k ≤ 63 ∧ self.capacity = 2 ^ k ∧ self.mask = self.capacity - 1
      ∧ buf.length = self.capacity
      ∧ self.read_index < 18446744073709551616 ∧ self.write_index < 18446744073709551616
      ∧ self.get_used_size ≤ self.capacity
      ∧ 1 ≤ self.capacity ∧ self.capacity ≤ 9223372036854775808 := by
  obtain ⟨hr, hw, hu, hs⟩ := h
  rw [hb] at hs
  obtain ⟨hlen, hmask, k, hk, hcap⟩ := hs
  have hp := two_pow_le_of_le_63 k hk
  rw [← hcap] at hp
  exact ⟨k, hk, hcap, hmask, hlen, hr, hw, hu, hp.1, hp.2⟩

/-- What the invariants say about a buffer that has no storage. -/
theorem invariants_none (self : RingBuffer) (hb : self.buffer = none)
    (h : self.invariants) :
    self.capacity = 0 ∧ self.read_index = 0 ∧ self.write_index = 0 := by
  obtain ⟨-, -, -, hs⟩ := h
  rw [hb] at hs
  exact hs

/-- A remainder below twice the modulus, without the remainder. -/
theorem mod_of_lt_two_mul (x c : Nat) (h : x < 2 * c) :
    x % c = if x < c then x else x - c := by
  split
  · rename_i hlt
    exact Nat.mod_eq_of_lt hlt
  · rename_i hge
    rw [Nat.mod_eq_sub_mod (by omega)]
    exact Nat.mod_eq_of_lt (by omega)

/-- The physical offset of a counter advanced by `d` (wrapping at `2^64`), from the
offset before: the wrap of the counter does not show, because the capacity divides
`2^64`. -/
theorem offset_wrapping_add (self : RingBuffer) (k : Nat) (hk : k ≤ 63)
    (hcap : self.capacity = 2 ^ k) (hmask : self.mask = self.capacity - 1) (x d : Nat) :
    (wrapping_add x d) &&& self.mask = (x % self.capacity + d) % self.capacity := by
  have hdvd : 2 ^ k ∣ 18446744073709551616 := by
    have : (18446744073709551616 : Nat) = 2 ^ 64 := by norm_num
    rw [this]
    exact Nat.pow_dvd_pow 2 (by omega)
  rw [hmask, hcap, Nat.and_pow_two_sub_one_eq_mod, wrapping_add,
    Nat.mod_mod_of_dvd _ hdvd, Nat.mod_add_mod]

/-- A transfer that passed its size check is no larger than the capacity. -/
theorem free_size_le_capacity (self : RingBuffer)
    (hcap : self.capacity ≤ 9223372036854775808)
    (hused : self.get_used_size ≤ self.capacity) :
    self.get_free_size = self.capacity - self.get_used_size := by
  simp only [get_free_size, wrapping_sub] at *
  omega

/-- A successful `enqueue` of a positive size found storage, a source and room. -/
theorem enqueue_ok_inv (self : RingBuffer) (src : Option (List Byte)) (size : Nat)
    (hs : 0 < size) (hok : (self.enqueue src size).ok = true) :
    ∃ buf s, self.buffer = some buf ∧ src = some s ∧ size ≤ self.get_free_size := by
  have h0 : size ≠ 0 := by omega
  cases hb : self.buffer <;> cases src <;>
    simp only [enqueue, h0, hb, if_false, Bool.false_eq_true] at hok
  rename_i buf s
  by_cases hf : self.get_free_size < size
  · simp [hf] at hok
  · exact ⟨buf, s, rfl, rfl, by omega⟩

/-- A successful `dequeue` of a positive size found storage, a destination and
enough bytes. -/
theorem dequeue_ok_inv (self : RingBuffer) (dst : Option (List Byte)) (size : Nat)
    (hs : 0 < size) (hok : (self.dequeue dst size).ok = true) :
    ∃ buf d, self.buffer = some buf ∧ dst = some d ∧ size ≤ self.get_used_size := by
  have h0 : size ≠ 0 := by omega
  cases hb : self.buffer <;> cases dst <;>
    simp only [dequeue, h0, hb, if_false, Bool.false_eq_true] at hok
  rename_i buf d
  by_cases hf : self.get_used_size < size
  · simp [hf] at hok
  · exact ⟨buf, d, rfl, rfl, by omega⟩

/-- A successful `peek` of a positive size found storage, a destination and enough
bytes. -/
theorem peek_ok_inv (self : RingBuffer) (dst : Option (List Byte)) (size : Nat)
    (hs : 0 < size) (hok : (self.peek dst size).ok = true) :
    ∃ buf d, self.buffer = some buf ∧ dst = some d ∧ size ≤ self.get_used_size := by
  have h0 : size ≠ 0 := by omega
  cases hb : self.buffer <;> cases dst <;>
    simp only [peek, h0, hb, if_false, Bool.false_eq_true] at hok
  rename_i buf d
  by_cases hf : self.get_used_size < size
  · simp [hf] at hok
  · exact ⟨buf, d, rfl, rfl, by omega⟩

/-- The spans of a transfer of at most `capacity` bytes stay inside the storage. -/
theorem spans_in_bounds_of_le (self : RingBuffer) (k : Nat) (hk : k ≤ 63)
    (hcap : self.capacity = 2 ^ k) (hmask : self.mask = self.capacity - 1)
    (index size : Nat) (hsize : size ≤ self.capacity) :
    self.spans_in_bounds index size := by
  obtain ⟨-, h1, -, h2, h3, h4⟩ := span_geometry self k hk hcap hmask index size hsize
  exact ⟨h1, h2, h3, h4⟩

/-- C17. On a state with power-of-two capacity, `mask = capacity - 1` and used size at
most the capacity, every `enqueue`, `dequeue` and `peek` that passes its checks
touches offsets in `[0, capacity)` only: the offset `index & mask` is below the
capacity, the first span ends at or before the physical end, the spans add up to
`size`, and the second span `[0, second_size)` ends at or before the offset; the
offset behind a non-null direct pointer is below the capacity too. -/
theorem storage_access_in_bounds (self : RingBuffer) (k : Nat) (hk : k ≤ 63)
    (hcap : self.capacity = 2 ^ k) (hmask : self.mask = self.capacity - 1)
    (hused : self.get_used_size ≤ self.get_capacity) :
    (∀ src size, 0 < size → (self.enqueue src size).ok = true →
        self.spans_in_bounds self.write_index size)
    ∧ (∀ dst size, 0 < size → (self.dequeue dst size).ok = true →
        self.spans_in_bounds self.read_index size)
    ∧ (∀ dst size, 0 < size → (self.peek dst size).ok = true →
        self.spans_in_bounds self.read_index size)
    ∧ (∀ off, self.get_direct_enqueue_ptr = some off → off < self.get_capacity)
    ∧ (∀ off, self.get_direct_dequeue_ptr = some off → off < self.get_capacity) := by
  have hp := two_pow_le_of_le_63 k hk
  rw [← hcap] at hp
  have hfree := free_size_le_capacity self hp.2 hused
  simp only [get_capacity] at hused
  refine ⟨?_, ?_, ?_, ?_, ?_⟩
  · intro src size hs hok
    obtain ⟨_, _, -, -, hle⟩ := enqueue_ok_inv self src size hs hok
    exact spans_in_bounds_of_le self k hk hcap hmask _ size (by omega)
  · intro dst size hs hok
    obtain ⟨_, _, -, -, hle⟩ := dequeue_ok_inv self dst size hs hok
    exact spans_in_bounds_of_le self k hk hcap hmask _ size (by omega)
  · intro dst size hs hok
    obtain ⟨_, _, -, -, hle⟩ := peek_ok_inv self dst size hs hok
    exact spans_in_bounds_of_le self k hk hcap hmask _ size (by omega)
  · intro off hoff
    have h := (span_geometry self k hk hcap hmask self.write_index 0 (by omega)).2.1
    cases hb : self.buffer <;> simp only [get_direct_enqueue_ptr, hb] at hoff
    · exact absurd hoff (by simp)
    · simp only [Option.some.injEq] at hoff
      rw [← hoff]
      exact h
  · intro off hoff
    have h := (span_geometry self k hk hcap hmask self.read_index 0 (by omega)).2.1
    cases hb : self.buffer <;> simp only [get_direct_dequeue_ptr, hb] at hoff
    · exact absurd hoff (by simp)
    · simp only [Option.some.injEq] at hoff
      rw [← hoff]
      exact h

/-- Capacity 8 with both counters at 5: a write of 6 bytes is laid out as offsets
5 to 7 and 0 to 2. -/
theorem storage_access_in_bounds_witness :
    (⟨some [1, 2, 3, 4, 5, 0, 0, 0], 8, 7, 5, 5⟩ : RingBuffer).spans_in_bounds 5 6
    ∧ first_size ((⟨some [1, 2, 3, 4, 5, 0, 0, 0], 8, 7, 5, 5⟩ : RingBuffer).space_to_end 5) 6
        = 3 :=
  ⟨(storage_access_in_bounds ⟨some [1, 2, 3, 4, 5, 0, 0, 0], 8, 7, 5, 5⟩ 3 (by decide) rfl rfl
      (by decide)).1 (some [11, 12, 13, 14, 15, 16]) 6 (by decide) (by decide),
    by decide⟩


/-- C13. On every state satisfying the invariants the direct sizes are the contiguous
runs: `get_direct_enqueue_size()` is the smaller of the free size and
`capacity - (write_index & mask)`, `get_direct_dequeue_size()` the smaller of the
used size and `capacity - (read_index & mask)`; so neither exceeds the free,
respectively used, size, and the run that starts at the physical offset ends at or
before the physical end of the storage. -/
theorem direct_sizes (self : RingBuffer) (h : self.invariants) :
    self.get_direct_enqueue_size
        = min self.get_free_size (self.get_capacity - (self.write_index &&& self.mask))
    ∧ self.get_direct_dequeue_size
        = min self.get_used_size (self.get_capacity - (self.read_index &&& self.mask))
    ∧ self.get_direct_enqueue_size ≤ self.get_free_size
    ∧ self.get_direct_dequeue_size ≤ self.get_used_size
    ∧ (self.write_index &&& self.mask) + self.get_direct_enqueue_size ≤ self.get_capacity
    ∧ (self.read_index &&& self.mask) + self.get_direct_dequeue_size
        ≤ self.get_capacity := by
  cases hb : self.buffer with
  | none =>
    obtain ⟨hcap, hr, hw⟩ := invariants_none self hb h
    simp only [get_direct_enqueue_size, get_direct_dequeue_size, space_to_end,
      get_free_size, get_used_size, get_capacity, hcap, hr, hw, Nat.zero_and, wrapping_sub]
    decide
  | some buf =>
    obtain ⟨k, hk, hcap, hmask, -, -, -, hused, -, hle⟩ := invariants_some self buf hb h
    obtain ⟨-, hw1, hw2, -⟩ :=
      span_geometry self k hk hcap hmask self.write_index 0 (Nat.zero_le _)
    obtain ⟨-, hr1, hr2, -⟩ :=
      span_geometry self k hk hcap hmask self.read_index 0 (Nat.zero_le _)
    have hfree := free_size_le_capacity self hle hused
    simp only [get_direct_enqueue_size, get_direct_dequeue_size, get_capacity, hw2, hr2,
      hfree]
    generalize self.write_index &&& self.mask = ow at *
    generalize self.read_index &&& self.mask = or at *
    generalize self.get_used_size = u at *
    refine ⟨?_, ?_, ?_, ?_, ?_, ?_⟩ <;> split <;> omega

/-- Capacity 8 holding stream bytes 5 to 10: three used bytes run to the physical
end, two free bytes follow the write offset 3. -/
theorem direct_sizes_witness :
    (⟨some [8, 9, 10, 4, 5, 5, 6, 7], 8, 7, 5, 11⟩ : RingBuffer).get_direct_dequeue_size = 3
    ∧ (⟨some [8, 9, 10, 4, 5, 5, 6, 7], 8, 7, 5, 11⟩ : RingBuffer).get_direct_enqueue_size = 2
    ∧ (⟨some [8, 9, 10, 4, 5, 5, 6, 7], 8, 7, 5, 11⟩ : RingBuffer).get_direct_dequeue_size
        = min (⟨some [8, 9, 10, 4, 5, 5, 6, 7], 8, 7, 5, 11⟩ : RingBuffer).get_used_size
            ((⟨some [8, 9, 10, 4, 5, 5, 6, 7], 8, 7, 5, 11⟩ : RingBuffer).get_capacity
              - (5 &&& 7)) :=
  ⟨by decide, by decide,
    (direct_sizes ⟨some [8, 9, 10, 4, 5, 5, 6, 7], 8, 7, 5, 11⟩ (by decide)).2.1⟩

/-- C12. On every state satisfying the invariants, with `d` the direct enqueue size
and `X` any `d` bytes: writing `X` into the storage at the direct enqueue pointer and
then calling `advance_write_index(d)` leaves exactly the buffer (storage, counters,
capacity, mask) that `enqueue(X, d)`, which succeeds, leaves. -/
theorem direct_write_eq_enqueue (self : RingBuffer) (h : self.invariants) (X : List Byte)
    (hX : X.length = self.get_direct_enqueue_size) :
    (self.enqueue (some X) X.length).ok = true
    ∧ (self.direct_write X).advance_write_index X.length
        = (self.enqueue (some X) X.length).self := by
  have hw : self.write_index < 18446744073709551616 := h.2.1
  have hw0 : wrapping_add self.write_index 0 = self.write_index := by
    simp only [wrapping_add]
    omega
  have hdf : self.get_direct_enqueue_size ≤ self.get_free_size := by
    simp only [get_direct_enqueue_size]
    split <;> omega
  cases hb : self.buffer with
  | none =>
    obtain ⟨hcap, hr, hw⟩ := invariants_none self hb h
    have hd : X.length = 0 := by
      rw [hX]
      simp only [get_direct_enqueue_size, space_to_end, get_free_size, get_used_size,
        hcap, hr, hw, Nat.zero_and, wrapping_sub]
      decide
    rw [hd]
    cases self
    simp_all [enqueue, direct_write, RingBuffer.advance_write_index]
  | some buf =>
    by_cases hd : X.length = 0
    · rw [hd]
      have hm : memcpy buf (self.write_index &&& self.mask) X 0 0 = buf := rfl
      cases self
      simp_all [enqueue, direct_write, RingBuffer.advance_write_index,
        get_direct_enqueue_ptr]
    · have hfree : ¬ self.get_free_size < X.length := by omega
      have hsp : X.length ≤ self.space_to_end self.write_index := by
        rw [hX]
        simp only [get_direct_enqueue_size]
        split <;> omega
      have hfirst : first_size (self.space_to_end self.write_index) X.length = X.length := by
        simp only [first_size, ge_iff_le, hsp, if_true]
      have hsecond : second_size X.length X.length = 0 := by
        simp only [second_size, wrapping_sub]
        omega
      have hcopy : self.copy_in buf X X.length
          = memcpy buf (self.write_index &&& self.mask) X 0 X.length := by
        simp only [copy_in, hfirst, hsecond, ne_eq, not_true_eq_false, if_false]
      simp only [enqueue, hd, hb, hfree, if_false, hcopy, direct_write,
        get_direct_enqueue_ptr, RingBuffer.advance_write_index, true_and]

/-- Capacity 8 holding stream bytes 5 to 10: the two free bytes up to offset 5 are
written in place. -/
theorem direct_write_eq_enqueue_witness :
    ((⟨some [8, 9, 10, 4, 5, 5, 6, 7], 8, 7, 5, 11⟩ : RingBuffer).direct_write
        [21, 22]).advance_write_index 2
      = ⟨some [8, 9, 10, 21, 22, 5, 6, 7], 8, 7, 5, 13⟩
    ∧ ((⟨some [8, 9, 10, 4, 5, 5, 6, 7], 8, 7, 5, 11⟩ : RingBuffer).direct_write
        [21, 22]).advance_write_index 2
      = ((⟨some [8, 9, 10, 4, 5, 5, 6, 7], 8, 7, 5, 11⟩ : RingBuffer).enqueue
          (some [21, 22]) 2).self :=
  ⟨by decide,
    (direct_write_eq_enqueue ⟨some [8, 9, 10, 4, 5, 5, 6, 7], 8, 7, 5, 11⟩ (by decide)
      [21, 22] (by decide)).2⟩


/-- The direct dequeue size, spelled out: the used size when the used bytes end at or
before the physical end, the distance to the physical end otherwise. -/
theorem direct_dequeue_size_eq (self : RingBuffer) (k : Nat) (hk : k ≤ 63)
    (hcap : self.capacity = 2 ^ k) (hmask : self.mask = self.capacity - 1) :
    self.get_direct_dequeue_size
      = if self.get_used_size ≤ self.capacity - self.read_index % self.capacity
        then self.get_used_size else self.capacity - self.read_index % self.capacity := by
  obtain ⟨h1, -, h2, -⟩ :=
    span_geometry self k hk hcap hmask self.read_index 0 (Nat.zero_le _)
  simp only [get_direct_dequeue_size, h2, h1, ge_iff_le]

/-- The direct enqueue size, spelled out: the free size when the free bytes end at or
before the physical end, the distance to the physical end otherwise. -/
theorem direct_enqueue_size_eq (self : RingBuffer) (k : Nat) (hk : k ≤ 63)
    (hcap : self.capacity = 2 ^ k) (hmask : self.mask = self.capacity - 1) :
    self.get_direct_enqueue_size
      = if self.get_free_size ≤ self.capacity - self.write_index % self.capacity
        then self.get_free_size else self.capacity - self.write_index % self.capacity := by
  obtain ⟨h1, -, h2, -⟩ :=
    span_geometry self k hk hcap hmask self.write_index 0 (Nat.zero_le _)
  simp only [get_direct_enqueue_size, h2, h1, ge_iff_le]

/-- Advancing the read counter by no more than the used size lowers the used size by
that much, wrap or no wrap. -/
theorem used_size_advance_read (r w d : Nat) (hd : d ≤ wrapping_sub w r) :
    wrapping_sub w (wrapping_add r d) = wrapping_sub w r - d := by
  simp only [wrapping_sub, wrapping_add] at *
  omega

/-- Advancing the write counter raises the used size by that much, wrap or no wrap,
as long as the sum is a 64-bit value. -/
theorem used_size_advance_write (r w d : Nat)
    (hd : wrapping_sub w r + d < 18446744073709551616) :
    wrapping_sub (wrapping_add w d) r = wrapping_sub w r + d := by
  simp only [wrapping_sub, wrapping_add] at *
  omega

/-- The arithmetic of a contiguous run: with `n` bytes to go from offset `o` in a
storage of `cap` bytes, the run `d` is positive when `n` is, and from the offset
reached after it the next run is all of the remaining `n - d` bytes. -/
theorem run_then_rest (cap o n d d2 : Nat) (ho : o < cap) (hn : n ≤ cap)
    (hd : d = if n ≤ cap - o then n else cap - o)
    (hd2 : d2 = if n - d ≤ cap - (if o + d < cap then o + d else o + d - cap) then n - d
      else cap - (if o + d < cap then o + d else o + d - cap)) :
    (0 < n → 0 < d) ∧ d ≤ n ∧ d2 = n - d := by
  subst hd2
  split at hd <;> subst hd
  · refine ⟨fun h => h, Nat.le_refl _, ?_⟩
    split <;> split <;> omega
  · refine ⟨fun _ => by omega, by omega, ?_⟩
    split <;> split <;> omega

/-- C20. On every state with storage that satisfies the invariants: the direct dequeue
size is positive whenever bytes are used, and after `advance_read_index` by it the
new direct dequeue size is the whole remaining used size; the direct enqueue size is
positive whenever bytes are free, and after `advance_write_index` by it the new
direct enqueue size is the whole remaining free size; both advances keep the used
size within the capacity. -/
theorem direct_access_progress (self : RingBuffer) (buf : List Byte)
    (hb : self.buffer = some buf) (h : self.invariants) :
    (0 < self.get_used_size → 0 < self.get_direct_dequeue_size)
    ∧ (self.advance_read_index self.get_direct_dequeue_size).get_used_size
        = self.get_used_size - self.get_direct_dequeue_size
    ∧ (self.advance_read_index self.get_direct_dequeue_size).get_direct_dequeue_size
        = (self.advance_read_index self.get_direct_dequeue_size).get_used_size
    ∧ (self.advance_read_index self.get_direct_dequeue_size).get_used_size
        ≤ (self.advance_read_index self.get_direct_dequeue_size).get_capacity
    ∧ (0 < self.get_free_size → 0 < self.get_direct_enqueue_size)
    ∧ (self.advance_write_index self.get_direct_enqueue_size).get_free_size
        = self.get_free_size - self.get_direct_enqueue_size
    ∧ (self.advance_write_index self.get_direct_enqueue_size).get_direct_enqueue_size
        = (self.advance_write_index self.get_direct_enqueue_size).get_free_size
    ∧ (self.advance_write_index self.get_direct_enqueue_size).get_used_size
        ≤ (self.advance_write_index self.get_direct_enqueue_size).get_capacity := by
  obtain ⟨k, hk, hcap, hmask, -, hr, hw, hused, hc1, hc2⟩ := invariants_some self buf hb h
  have hfree := free_size_le_capacity self hc2 hused
  have hrlt : self.read_index % self.capacity < self.capacity := Nat.mod_lt _ (by omega)
  have hwlt : self.write_index % self.capacity < self.capacity := Nat.mod_lt _ (by omega)
  have hdd := direct_dequeue_size_eq self k hk hcap hmask
  have hde := direct_enqueue_size_eq self k hk hcap hmask
  have hdd2 := direct_dequeue_size_eq (self.advance_read_index self.get_direct_dequeue_size)
    k hk hcap hmask
  have hde2 := direct_enqueue_size_eq
    (self.advance_write_index self.get_direct_enqueue_size) k hk hcap hmask
  have hor : (self.advance_read_index self.get_direct_dequeue_size).read_index
      % self.capacity
      = (self.read_index % self.capacity + self.get_direct_dequeue_size) % self.capacity := by
    have e := offset_wrapping_add self k hk hcap hmask self.read_index
      self.get_direct_dequeue_size
    rw [hmask, hcap, Nat.and_pow_two_sub_one_eq_mod, ← hcap] at e
    exact e
  have how : (self.advance_write_index self.get_direct_enqueue_size).write_index
      % self.capacity
      = (self.write_index % self.capacity + self.get_direct_enqueue_size) % self.capacity := by
    have e := offset_wrapping_add self k hk hcap hmask self.write_index
      self.get_direct_enqueue_size
    rw [hmask, hcap, Nat.and_pow_two_sub_one_eq_mod, ← hcap] at e
    exact e
  have hdle : self.get_direct_dequeue_size ≤ self.get_used_size := by
    rw [hdd]
    split <;> omega
  have hele : self.get_direct_enqueue_size ≤ self.get_free_size := by
    rw [hde]
    split <;> omega
  have hu2 : (self.advance_read_index self.get_direct_dequeue_size).get_used_size
      = self.get_used_size - self.get_direct_dequeue_size :=
    used_size_advance_read _ _ _ hdle
  have hu3 : (self.advance_write_index self.get_direct_enqueue_size).get_used_size
      = self.get_used_size + self.get_direct_enqueue_size :=
    used_size_advance_write _ _ _ (by
      show self.get_used_size + self.get_direct_enqueue_size < 18446744073709551616
      omega)
  have hcr : (self.advance_read_index self.get_direct_dequeue_size).capacity
      = self.capacity := rfl
  have hcw : (self.advance_write_index self.get_direct_enqueue_size).capacity
      = self.capacity := rfl
  have hf3 := free_size_le_capacity
    (self.advance_write_index self.get_direct_enqueue_size) hc2 (by rw [hu3, hcw]; omega)
  rw [hcr, hor, mod_of_lt_two_mul _ _ (by omega), hu2] at hdd2
  rw [hcw, how, mod_of_lt_two_mul _ _ (by omega), hf3, hu3, hcw] at hde2
  have e : self.capacity - (self.get_used_size + self.get_direct_enqueue_size)
      = self.get_free_size - self.get_direct_enqueue_size := by omega
  rw [e] at hde2
  obtain ⟨hr1, -, hr2⟩ := run_then_rest _ _ _ _ _ hrlt hused hdd hdd2
  obtain ⟨hw1, -, hw2⟩ := run_then_rest _ _ _ _ _ hwlt (by omega) hde hde2
  simp only [get_capacity, hcr, hcw]
  refine ⟨hr1, hu2, ?_, ?_, hw1, ?_, ?_, ?_⟩
  · rw [hr2, hu2]
  · rw [hu2]
    omega
  · rw [hf3, hu3, hcw]
    omega
  · rw [hw2, hf3, hu3, hcw]
    omega
  · rw [hu3]
    omega

/-- Capacity 8 holding stream bytes 5 to 10: the six used bytes drain as a run of 3 to
the physical end and a run of 3 from offset 0. -/
theorem direct_access_progress_witness :
    (⟨some [8, 9, 10, 4, 5, 5, 6, 7], 8, 7, 5, 11⟩ : RingBuffer).get_direct_dequeue_size = 3
    ∧ ((⟨some [8, 9, 10, 4, 5, 5, 6, 7], 8, 7, 5, 11⟩ : RingBuffer).advance_read_index
        3).get_used_size = 3
    ∧ ((⟨some [8, 9, 10, 4, 5, 5, 6, 7], 8, 7, 5, 11⟩ : RingBuffer).advance_read_index
        (⟨some [8, 9, 10, 4, 5, 5, 6, 7], 8, 7, 5, 11⟩ : RingBuffer).get_direct_dequeue_size
          ).get_direct_dequeue_size
      = ((⟨some [8, 9, 10, 4, 5, 5, 6, 7], 8, 7, 5, 11⟩ : RingBuffer).advance_read_index
        (⟨some [8, 9, 10, 4, 5, 5, 6, 7], 8, 7, 5, 11⟩ : RingBuffer).get_direct_dequeue_size
          ).get_used_size :=
  ⟨by decide, by decide,
    (direct_access_progress ⟨some [8, 9, 10, 4, 5, 5, 6, 7], 8, 7, 5, 11⟩
      [8, 9, 10, 4, 5, 5, 6, 7] rfl (by decide)).2.2.1⟩


/-! ## Logical positions -/

/-- The offset and the two span sizes of a transfer of at most `capacity` bytes,
spelled out. -/
theorem spans_eq (self : RingBuffer) (k : Nat) (hk : k ≤ 63)
    (hcap : self.capacity = 2 ^ k) (hmask : self.mask = self.capacity - 1)
    (index size : Nat) (hsize : size ≤ self.capacity) :
    (index &&& self.mask) = index % self.capacity
    ∧ first_size (self.space_to_end index) size
        = (if size ≤ self.capacity - index % self.capacity then size
           else self.capacity - index % self.capacity)
    ∧ second_size size (first_size (self.space_to_end index) size)
        = size - (if size ≤ self.capacity - index % self.capacity then size
           else self.capacity - index % self.capacity) := by
  obtain ⟨h1, -, h2, -, h3, -⟩ := span_geometry self k hk hcap hmask index size hsize
  have hf : first_size (self.space_to_end index) size
      = (if size ≤ self.capacity - index % self.capacity then size
         else self.capacity - index % self.capacity) := by
    simp only [first_size, h2, h1, ge_iff_le]
  refine ⟨h1, hf, ?_⟩
  rw [← hf]
  omega

/-- The physical offset of the logical position `index + i`. -/
theorem offset_add (self : RingBuffer) (k : Nat) (hk : k ≤ 63)
    (hcap : self.capacity = 2 ^ k) (hmask : self.mask = self.capacity - 1)
    (index i : Nat) (hi : i ≤ self.capacity) :
    (index + i) &&& self.mask
      = if index % self.capacity + i < self.capacity then index % self.capacity + i
        else index % self.capacity + i - self.capacity := by
  have hp := two_pow_le_of_le_63 k hk
  rw [← hcap] at hp
  have hlt : index % self.capacity < self.capacity := Nat.mod_lt _ (by omega)
  rw [hmask, hcap, Nat.and_pow_two_sub_one_eq_mod, ← hcap, ← Nat.mod_add_mod,
    mod_of_lt_two_mul _ _ (by omega)]

/-- The destination after the copies of `dequeue` and `peek`, by logical position:
byte `i < size` is the storage byte of logical position `read_index + i`. -/
theorem copy_out_getElem?_logical (self : RingBuffer) (k : Nat) (hk : k ≤ 63)
    (hcap : self.capacity = 2 ^ k) (hmask : self.mask = self.capacity - 1)
    (buf dst : List Byte) (hlen : buf.length = self.capacity)
    (size : Nat) (hsize : size ≤ self.capacity) (hdst : size ≤ dst.length) (i : Nat) :
    (self.copy_out buf dst size)[i]? =
      if i < size then some (buf.getD ((self.read_index + i) &&& self.mask) 0)
      else dst[i]? := by
  obtain ⟨ho, hf, hs⟩ := spans_eq self k hk hcap hmask self.read_index size hsize
  have hp := two_pow_le_of_le_63 k hk
  rw [← hcap] at hp
  have hlt : self.read_index % self.capacity < self.capacity := Nat.mod_lt _ (by omega)
  rw [copy_out_getElem?, hs, hf, ho]
  by_cases hi : i < size
  · rw [if_pos hi, offset_add self k hk hcap hmask _ i (by omega)]
    generalize self.read_index % self.capacity = ro at *
    generalize self.capacity = cap at *
    by_cases h1 : size ≤ cap - ro
    · simp only [h1, if_true]
      have c1 : ¬ (size ≤ i ∧ i < size + (size - size) ∧ i < dst.length) := by omega
      have c2 : i < size ∧ i < dst.length := by omega
      have c3 : ro + i < cap := by omega
      rw [if_neg c1, if_pos c2, if_pos c3]
    · simp only [h1, if_false]
      by_cases h2 : i < cap - ro
      · have c1 : ¬ (cap - ro ≤ i ∧ i < cap - ro + (size - (cap - ro)) ∧ i < dst.length) := by
          omega
        have c2 : i < cap - ro ∧ i < dst.length := by omega
        have c3 : ro + i < cap := by omega
        rw [if_neg c1, if_pos c2, if_pos c3]
      · have c1 : cap - ro ≤ i ∧ i < cap - ro + (size - (cap - ro)) ∧ i < dst.length := by
          omega
        have c3 : ¬ ro + i < cap := by omega
        have e : i - (cap - ro) = ro + i - cap := by omega
        rw [if_pos c1, if_neg c3, e]
  · rw [if_neg hi]
    generalize self.read_index % self.capacity = ro at *
    generalize self.capacity = cap at *
    have c1 : ¬ ((if size ≤ cap - ro then size else cap - ro) ≤ i
        ∧ i < (if size ≤ cap - ro then size else cap - ro)
              + (size - (if size ≤ cap - ro then size else cap - ro))
        ∧ i < dst.length) := by
      split <;> omega
    have c2 : ¬ (i < (if size ≤ cap - ro then size else cap - ro) ∧ i < dst.length) := by
      split <;> omega
    rw [if_neg c1, if_neg c2]

/-- The storage after the copies of `enqueue`, by logical position: the byte at a
physical offset `j` is byte `t` of the source when `j` is the offset of the logical
position `write_index + t` with `t < size`, and is as before otherwise. -/
theorem copy_in_getElem?_logical (self : RingBuffer) (k : Nat) (hk : k ≤ 63)
    (hcap : self.capacity = 2 ^ k) (hmask : self.mask = self.capacity - 1)
    (buf src : List Byte) (hlen : buf.length = self.capacity)
    (size : Nat) (hsize : size ≤ self.capacity) (hsrc : size ≤ src.length) (j : Nat) :
    (self.copy_in buf src size)[j]? =
      if j < self.capacity
          ∧ (if self.write_index % self.capacity ≤ j then j - self.write_index % self.capacity
             else j + self.capacity - self.write_index % self.capacity) < size then
        src[if self.write_index % self.capacity ≤ j then j - self.write_index % self.capacity
            else j + self.capacity - self.write_index % self.capacity]?
      else buf[j]? := by
  obtain ⟨ho, hf, hs⟩ := spans_eq self k hk hcap hmask self.write_index size hsize
  have hp := two_pow_le_of_le_63 k hk
  rw [← hcap] at hp
  have hlt : self.write_index % self.capacity < self.capacity := Nat.mod_lt _ (by omega)
  rw [copy_in_getElem?, hs, hf, ho, hlen]
  generalize self.write_index % self.capacity = wo at *
  generalize self.capacity = cap at *
  by_cases h1 : size ≤ cap - wo
  · simp only [h1, if_true]
    have c1 : ¬ (j < size - size ∧ j < cap) := by omega
    rw [if_neg c1]
    by_cases h2 : wo ≤ j ∧ j < wo + size ∧ j < cap
    · have c2 : j < cap ∧ (if wo ≤ j then j - wo else j + cap - wo) < size := by
        rw [if_pos h2.1]
        omega
      rw [if_pos h2, if_pos c2, if_pos h2.1, some_getD_of_lt _ _ (by omega)]
    · have c2 : ¬ (j < cap ∧ (if wo ≤ j then j - wo else j + cap - wo) < size) := by
        split <;> omega
      rw [if_neg h2, if_neg c2]
  · simp only [h1, if_false]
    by_cases h2 : j < size - (cap - wo) ∧ j < cap
    · have c0 : ¬ wo ≤ j := by omega
      have c2 : j < cap ∧ (if wo ≤ j then j - wo else j + cap - wo) < size := by
        rw [if_neg c0]
        omega
      have e : cap - wo + j = j + cap - wo := by omega
      rw [if_pos h2, if_pos c2, if_neg c0, e, some_getD_of_lt _ _ (by omega)]
    · rw [if_neg h2]
      by_cases h3 : wo ≤ j ∧ j < wo + (cap - wo) ∧ j < cap
      · have c2 : j < cap ∧ (if wo ≤ j then j - wo else j + cap - wo) < size := by
          rw [if_pos h3.1]
          omega
        rw [if_pos h3, if_pos c2, if_pos h3.1, some_getD_of_lt _ _ (by omega)]
      · have c2 : ¬ (j < cap ∧ (if wo ≤ j then j - wo else j + cap - wo) < size) := by
          split <;> omega
        rw [if_neg h3, if_neg c2]


/-- What a successful `enqueue` of a positive size returns. -/
theorem enqueue_eq_of_room (self : RingBuffer) (buf src : List Byte)
    (hb : self.buffer = some buf) (size : Nat) (hs : 0 < size)
    (hfree : size ≤ self.get_free_size) :
    self.enqueue (some src) size
      = ⟨true, { self with buffer := some (self.copy_in buf src size)
                           write_index := wrapping_add self.write_index size }⟩ := by
  have h0 : size ≠ 0 := by omega
  have h1 : ¬ self.get_free_size < size := by omega
  simp only [enqueue, h0, hb, h1, if_false]

/-- C18. On every state satisfying the invariants, for every source of `size` bytes
with `0 < size ≤ get_free_size()`: `enqueue` succeeds; afterwards the storage byte at
physical offset `(write_index_old + k) & mask` is `source[k]` for every `k < size`,
the first `first_size = min(size, capacity - (write_index_old & mask))` of them up to
the physical end and the others from offset 0, every other storage byte is as before,
`write_index` has advanced by `size` (modulo `2^64`), and `read_index`, `capacity`
and `mask` are as before. -/
theorem enqueue_postcondition (self : RingBuffer) (h : self.invariants)
    (src : List Byte) (size : Nat) (hs : 0 < size) (hfree : size ≤ self.get_free_size)
    (hsrc : size ≤ src.length) :
    ∃ buf out, self.buffer = some buf
      ∧ self.enqueue (some src) size
          = ⟨true, ⟨some out, self.capacity, self.mask, self.read_index,
              (self.write_index + size) % 18446744073709551616⟩⟩
      ∧ out.length = buf.length
      ∧ (∀ t, t < size → out[(self.write_index + t) &&& self.mask]? = src[t]?)
      ∧ (∀ t, t < min size (self.capacity - (self.write_index &&& self.mask)) →
          out[(self.write_index &&& self.mask) + t]? = src[t]?)
      ∧ (∀ t, t < size - min size (self.capacity - (self.write_index &&& self.mask)) →
          out[t]? = src[min size (self.capacity - (self.write_index &&& self.mask)) + t]?)
      ∧ (∀ j, (∀ t, t < size → (self.write_index + t) &&& self.mask ≠ j) →
          out[j]? = buf[j]?) := by
  cases hb : self.buffer with
  | none =>
    obtain ⟨hcap, hr, hw⟩ := invariants_none self hb h
    have : self.get_free_size = 0 := by
      simp only [get_free_size, get_used_size, hcap, hr, hw, wrapping_sub]
    omega
  | some buf =>
    obtain ⟨k, hk, hcap, hmask, hlen, -, -, hused, hc1, hc2⟩ := invariants_some self buf hb h
    have hfr := free_size_le_capacity self hc2 hused
    have hsize : size ≤ self.capacity := by omega
    have hwlt : self.write_index % self.capacity < self.capacity := Nat.mod_lt _ (by omega)
    have hoff : (self.write_index &&& self.mask) = self.write_index % self.capacity :=
      (spans_eq self k hk hcap hmask self.write_index size hsize).1
    refine ⟨buf, self.copy_in buf src size, rfl, ?_, copy_in_length _ _ _ _, ?_, ?_, ?_, ?_⟩
    · rw [enqueue_eq_of_room self buf src hb size hs hfree]
      rfl
    · intro t ht
      rw [copy_in_getElem?_logical self k hk hcap hmask buf src hlen size hsize hsrc,
        offset_add self k hk hcap hmask _ t (by omega)]
      generalize self.write_index % self.capacity = wo at *
      generalize self.capacity = cap at *
      by_cases c : wo + t < cap
      · have c1 : wo ≤ wo + t := by omega
        have e : wo + t - wo = t := by omega
        simp only [c, if_true, c1, e, ht, and_self]
      · have c1 : ¬ wo ≤ wo + t - cap := by omega
        have c2 : wo + t - cap < cap := by omega
        have e : wo + t - cap + cap - wo = t := by omega
        simp only [c, if_false, c1, c2, e, ht, and_self, if_true]
    · intro t ht
      rw [copy_in_getElem?_logical self k hk hcap hmask buf src hlen size hsize hsrc, hoff]
      rw [hoff] at ht
      generalize self.write_index % self.capacity = wo at *
      generalize self.capacity = cap at *
      have c1 : wo ≤ wo + t := by omega
      have c2 : wo + t < cap := by omega
      have c3 : t < size := by omega
      have e : wo + t - wo = t := by omega
      simp only [c1, c2, c3, e, and_self, if_true]
    · intro t ht
      rw [copy_in_getElem?_logical self k hk hcap hmask buf src hlen size hsize hsrc, hoff]
      rw [hoff] at ht
      generalize self.write_index % self.capacity = wo at *
      generalize self.capacity = cap at *
      have hm : min size (cap - wo) = cap - wo := by omega
      rw [hm] at ht ⊢
      have c1 : ¬ wo ≤ t := by omega
      have c2 : t < cap := by omega
      have c3 : t + cap - wo < size := by omega
      have e : cap - wo + t = t + cap - wo := by omega
      simp only [c1, c2, c3, e, and_self, if_true, if_false]
    · intro j hj
      rw [copy_in_getElem?_logical self k hk hcap hmask buf src hlen size hsize hsrc]
      have key : ¬ (j < self.capacity
          ∧ (if self.write_index % self.capacity ≤ j
              then j - self.write_index % self.capacity
              else j + self.capacity - self.write_index % self.capacity) < size) := by
        rintro ⟨hj1, hj2⟩
        apply hj _ hj2
        rw [offset_add self k hk hcap hmask _ _ (by omega)]
        generalize self.write_index % self.capacity = wo at *
        generalize self.capacity = cap at *
        split <;> split <;> omega
      rw [if_neg key]

/-- Capacity 8 with both counters at 5: six bytes land at offsets 5, 6, 7, 0, 1, 2 and
offsets 3 and 4 keep their bytes. -/
theorem enqueue_postcondition_witness :
    (⟨some [1, 2, 3, 4, 5, 0, 0, 0], 8, 7, 5, 5⟩ : RingBuffer).enqueue
        (some [11, 12, 13, 14, 15, 16]) 6
      = ⟨true, ⟨some [14, 15, 16, 4, 5, 11, 12, 13], 8, 7, 5, 11⟩⟩
    ∧ ∃ buf out, (⟨some [1, 2, 3, 4, 5, 0, 0, 0], 8, 7, 5, 5⟩ : RingBuffer).buffer = some buf
      ∧ (⟨some [1, 2, 3, 4, 5, 0, 0, 0], 8, 7, 5, 5⟩ : RingBuffer).enqueue
          (some [11, 12, 13, 14, 15, 16]) 6
          = ⟨true, ⟨some out, 8, 7, 5, (5 + 6) % 18446744073709551616⟩⟩
      ∧ (∀ t, t < 6 → out[(5 + t) &&& 7]? = [11, 12, 13, 14, 15, 16][t]?) := by
  refine ⟨by decide, ?_⟩
  obtain ⟨buf, out, h1, h2, -, h3, -⟩ :=
    enqueue_postcondition ⟨some [1, 2, 3, 4, 5, 0, 0, 0], 8, 7, 5, 5⟩ (by decide)
      [11, 12, 13, 14, 15, 16] 6 (by decide) (by decide) (by decide)
  exact ⟨buf, out, h1, h2, h3⟩


/-! ## The unread bytes -/

/-- There are `n` bytes at `n` logical positions. -/
theorem logical_bytes_length (self : RingBuffer) (buf : List Byte) (index n : Nat) :
    (self.logical_bytes buf index n).length = n := by
  simp only [logical_bytes, List.length_map, List.length_range]

/-- Byte `i` of the bytes at `n` logical positions. -/
theorem logical_bytes_getElem? (self : RingBuffer) (buf : List Byte) (index n i : Nat) :
    (self.logical_bytes buf index n)[i]? =
      if i < n then some (buf.getD ((index + i) &&& self.mask) 0) else none := by
  simp only [logical_bytes, List.getElem?_map, List.getElem?_range]
  split <;> simp_all

/-- The bytes at `a + b` logical positions are those at the first `a` followed by
those at the next `b`. -/
theorem logical_bytes_add (self : RingBuffer) (buf : List Byte) (index a b : Nat) :
    self.logical_bytes buf index (a + b)
      = self.logical_bytes buf index a ++ self.logical_bytes buf (index + a) b := by
  apply List.ext_getElem?
  intro i
  rw [List.getElem?_append, logical_bytes_length]
  simp only [logical_bytes_getElem?]
  by_cases h1 : i < a
  · rw [if_pos h1, if_pos h1, if_pos (by omega)]
  · rw [if_neg h1]
    by_cases h2 : i < a + b
    · rw [if_pos h2, if_pos (by omega), show index + a + (i - a) = index + i by omega]
    · rw [if_neg h2, if_neg (by omega)]

/-- A counter that wrapped at `2^64` designates the same storage bytes as the
unwrapped sum, because the capacity divides `2^64`. -/
theorem logical_bytes_wrapping_add (self : RingBuffer) (k : Nat) (hk : k ≤ 63)
    (hcap : self.capacity = 2 ^ k) (hmask : self.mask = self.capacity - 1)
    (buf : List Byte) (x a n : Nat) :
    self.logical_bytes buf (wrapping_add x a) n = self.logical_bytes buf (x + a) n := by
  have hdvd : 2 ^ k ∣ 18446744073709551616 := by
    have : (18446744073709551616 : Nat) = 2 ^ 64 := by norm_num
    rw [this]
    exact Nat.pow_dvd_pow 2 (by omega)
  have e : ∀ i, (wrapping_add x a + i) &&& self.mask = (x + a + i) &&& self.mask := by
    intro i
    rw [hmask, hcap, Nat.and_pow_two_sub_one_eq_mod, Nat.and_pow_two_sub_one_eq_mod,
      wrapping_add, Nat.add_mod, Nat.mod_mod_of_dvd _ hdvd, ← Nat.add_mod]
  simp only [logical_bytes, e]

/-- The physical write offset is the physical read offset plus the used size, reduced
modulo the capacity: a wrap of `write_index` at `2^64` does not show. -/
theorem write_offset_eq (self : RingBuffer) (k : Nat) (hk : k ≤ 63)
    (hcap : self.capacity = 2 ^ k)
    (hr : self.read_index < 18446744073709551616)
    (hw : self.write_index < 18446744073709551616) :
    self.write_index % self.capacity
      = (self.read_index % self.capacity + self.get_used_size) % self.capacity := by
  have hdvd : self.capacity ∣ 18446744073709551616 := by
    have : (18446744073709551616 : Nat) = 2 ^ 64 := by norm_num
    rw [this, hcap]
    exact Nat.pow_dvd_pow 2 (by omega)
  obtain ⟨q, hq⟩ := hdvd
  rw [Nat.mod_add_mod]
  by_cases h : self.read_index ≤ self.write_index
  · have e : self.read_index + self.get_used_size = self.write_index := by
      simp only [get_used_size, wrapping_sub]
      omega
    rw [e]
  · have e : self.read_index + self.get_used_size
        = self.write_index + self.capacity * q := by
      rw [← hq]
      simp only [get_used_size, wrapping_sub]
      omega
    rw [e, Nat.add_mul_mod_self_left]

/-- What `dequeue` and `peek` copy out is the bytes at the logical positions from
`read_index` on, followed by the untouched rest of the destination. -/
theorem copy_out_eq_logical (self : RingBuffer) (k : Nat) (hk : k ≤ 63)
    (hcap : self.capacity = 2 ^ k) (hmask : self.mask = self.capacity - 1)
    (buf dst : List Byte) (hlen : buf.length = self.capacity)
    (size : Nat) (hsize : size ≤ self.capacity) (hdst : size ≤ dst.length) :
    self.copy_out buf dst size
      = self.logical_bytes buf self.read_index size ++ dst.drop size := by
  apply List.ext_getElem?
  intro i
  rw [copy_out_getElem?_logical self k hk hcap hmask buf dst hlen size hsize hdst,
    List.getElem?_append, logical_bytes_length, logical_bytes_getElem?]
  by_cases h : i < size
  · rw [if_pos h, if_pos h, if_pos h]
  · rw [if_neg h, if_neg h, List.getElem?_drop, show size + (i - size) = i by omega]

/-- After the copies of `enqueue`, the bytes at the logical positions from
`read_index` on are the unread bytes from before followed by the source. -/
theorem logical_bytes_copy_in (self : RingBuffer) (k : Nat) (hk : k ≤ 63)
    (hcap : self.capacity = 2 ^ k) (hmask : self.mask = self.capacity - 1)
    (buf src : List Byte) (hlen : buf.length = self.capacity)
    (hr : self.read_index < 18446744073709551616)
    (hw : self.write_index < 18446744073709551616)
    (size : Nat) (hroom : self.get_used_size + size ≤ self.capacity)
    (hsrc : size ≤ src.length) :
    self.logical_bytes (self.copy_in buf src size) self.read_index
        (self.get_used_size + size)
      = self.logical_bytes buf self.read_index self.get_used_size ++ src.take size := by
  have hp := two_pow_le_of_le_63 k hk
  rw [← hcap] at hp
  have hrlt : self.read_index % self.capacity < self.capacity := Nat.mod_lt _ (by omega)
  have hwo := write_offset_eq self k hk hcap hr hw
  rw [mod_of_lt_two_mul (self.read_index % self.capacity + self.get_used_size)
    self.capacity (by omega)] at hwo
  apply List.ext_getElem?
  intro i
  rw [List.getElem?_append, logical_bytes_length, logical_bytes_getElem?,
    logical_bytes_getElem?, List.getElem?_take]
  by_cases h1 : i < self.get_used_size + size
  · rw [if_pos h1, List.getD_eq_getElem?_getD,
      copy_in_getElem?_logical self k hk hcap hmask buf src hlen size (by omega) hsrc,
      offset_add self k hk hcap hmask _ i (by omega), hwo]
    generalize self.read_index % self.capacity = ro at *
    generalize self.get_used_size = u at *
    generalize self.capacity = cap at *
    by_cases h2 : i < u
    · have c : ¬ ((if ro + i < cap then ro + i else ro + i - cap) < cap
          ∧ (if (if ro + u < cap then ro + u else ro + u - cap)
                ≤ (if ro + i < cap then ro + i else ro + i - cap)
             then (if ro + i < cap then ro + i else ro + i - cap)
                - (if ro + u < cap then ro + u else ro + u - cap)
             else (if ro + i < cap then ro + i else ro + i - cap) + cap
                - (if ro + u < cap then ro + u else ro + u - cap)) < size) := by
        split <;> split <;> split <;> omega
      rw [if_neg c, if_pos h2, if_pos h2, List.getD_eq_getElem?_getD]
    · have c : (if ro + i < cap then ro + i else ro + i - cap) < cap
          ∧ (if (if ro + u < cap then ro + u else ro + u - cap)
                ≤ (if ro + i < cap then ro + i else ro + i - cap)
             then (if ro + i < cap then ro + i else ro + i - cap)
                - (if ro + u < cap then ro + u else ro + u - cap)
             else (if ro + i < cap then ro + i else ro + i - cap) + cap
                - (if ro + u < cap then ro + u else ro + u - cap)) < size := by
        split <;> split <;> split <;> omega
      have e : (if (if ro + u < cap then ro + u else ro + u - cap)
                ≤ (if ro + i < cap then ro + i else ro + i - cap)
             then (if ro + i < cap then ro + i else ro + i - cap)
                - (if ro + u < cap then ro + u else ro + u - cap)
             else (if ro + i < cap then ro + i else ro + i - cap) + cap
                - (if ro + u < cap then ro + u else ro + u - cap)) = i - u := by
        split <;> split <;> split <;> omega
      rw [if_pos c, if_neg h2, e, if_pos (by omega),
        List.getElem?_eq_getElem (show i - u < src.length by omega), Option.getD_some]
  · rw [if_neg h1, if_neg (by omega), if_neg (by omega)]


/-- The invariants of a buffer with storage, put together from their parts. -/
theorem invariants_of_parts (self : RingBuffer) (buf : List Byte) (k : Nat)
    (hb : self.buffer = some buf) (hk : k ≤ 63) (hcap : self.capacity = 2 ^ k)
    (hmask : self.mask = self.capacity - 1) (hlen : buf.length = self.capacity)
    (hr : self.read_index < 18446744073709551616)
    (hw : self.write_index < 18446744073709551616)
    (hused : self.get_used_size ≤ self.capacity) : self.invariants := by
  refine ⟨hr, hw, hused, ?_⟩
  rw [hb]
  exact ⟨hlen, hmask, k, hk, hcap⟩

/-- An `enqueue` that has storage and room: it succeeds, keeps the invariants, raises
the used size by `size`, and the unread bytes afterwards are the unread bytes from
before followed by the first `size` bytes of the source. -/
theorem enqueue_logical (self : RingBuffer) (h : self.invariants) (buf src : List Byte)
    (hb : self.buffer = some buf) (size : Nat) (hfree : size ≤ self.get_free_size)
    (hsrc : size ≤ src.length) :
    (self.enqueue (some src) size).ok = true
    ∧ (self.enqueue (some src) size).self.invariants
    ∧ (self.enqueue (some src) size).self.read_index = self.read_index
    ∧ (self.enqueue (some src) size).self.get_used_size = self.get_used_size + size
    ∧ ∃ out, (self.enqueue (some src) size).self.buffer = some out
        ∧ (self.enqueue (some src) size).self.logical_bytes out self.read_index
            (self.get_used_size + size)
          = self.logical_bytes buf self.read_index self.get_used_size ++ src.take size := by
  obtain ⟨k, hk, hcap, hmask, hlen, hr, hw, hused, hc1, hc2⟩ := invariants_some self buf hb h
  have hfr := free_size_le_capacity self hc2 hused
  by_cases hs : size = 0
  · subst hs
    refine ⟨rfl, h, rfl, rfl, buf, hb, ?_⟩
    simp only [enqueue, if_true, Nat.add_zero, List.take_zero, List.append_nil]
  · rw [enqueue_eq_of_room self buf src hb size (Nat.pos_of_ne_zero hs) hfree]
    have hu : wrapping_sub (wrapping_add self.write_index size) self.read_index
        = self.get_used_size + size :=
      used_size_advance_write _ _ _ (by
        show self.get_used_size + size < 18446744073709551616
        omega)
    have hwlt : wrapping_add self.write_index size < 18446744073709551616 := by
      simp only [wrapping_add]
      omega
    refine ⟨rfl, ?_, rfl, hu, _, rfl, ?_⟩
    · refine invariants_of_parts _ (self.copy_in buf src size) k rfl hk hcap hmask ?_ hr hwlt ?_
      · rw [copy_in_length]
        exact hlen
      · show wrapping_sub (wrapping_add self.write_index size) self.read_index
          ≤ self.capacity
        omega
    · exact logical_bytes_copy_in self k hk hcap hmask buf src hlen hr hw size (by omega) hsrc

/-- A `peek` that has storage and enough unread bytes: it succeeds, changes nothing,
and fills the destination with the first `size` unread bytes. -/
theorem peek_logical (self : RingBuffer) (h : self.invariants) (buf dst : List Byte)
    (hb : self.buffer = some buf) (size : Nat) (hused : size ≤ self.get_used_size)
    (hdst : size ≤ dst.length) :
    self.peek (some dst) size
      = ⟨true, self, some (self.logical_bytes buf self.read_index size ++ dst.drop size)⟩ := by
  obtain ⟨k, hk, hcap, hmask, hlen, -, -, hu, -, -⟩ := invariants_some self buf hb h
  by_cases hs : size = 0
  · subst hs
    simp [peek, logical_bytes]
  · have h1 : ¬ self.get_used_size < size := by omega
    simp only [peek, hs, hb, h1, if_false]
    rw [copy_out_eq_logical self k hk hcap hmask buf dst hlen size (by omega) hdst]

/-- A `dequeue` that has storage and enough unread bytes: it succeeds, fills the
destination with the first `size` unread bytes, advances `read_index` by `size`,
keeps the invariants and lowers the used size by `size`. -/
theorem dequeue_logical (self : RingBuffer) (h : self.invariants) (buf dst : List Byte)
    (hb : self.buffer = some buf) (size : Nat) (hused : size ≤ self.get_used_size)
    (hdst : size ≤ dst.length) :
    (self.dequeue (some dst) size).ok = true
    ∧ (self.dequeue (some dst) size).dst
        = some (self.logical_bytes buf self.read_index size ++ dst.drop size)
    ∧ (self.dequeue (some dst) size).self = self.advance_read_index size
    ∧ (self.advance_read_index size).invariants
    ∧ (self.advance_read_index size).get_used_size = self.get_used_size - size := by
  obtain ⟨k, hk, hcap, hmask, hlen, hr, hw, hu, -, -⟩ := invariants_some self buf hb h
  have hu2 : (self.advance_read_index size).get_used_size = self.get_used_size - size :=
    used_size_advance_read _ _ _ hused
  have hrlt : wrapping_add self.read_index size < 18446744073709551616 := by
    simp only [wrapping_add]
    omega
  have hinv : (self.advance_read_index size).invariants :=
    invariants_of_parts _ buf k hb hk hcap hmask hlen hrlt hw (by
      show (self.advance_read_index size).get_used_size ≤ self.capacity
      omega)
  by_cases hs : size = 0
  · subst hs
    have e : self.advance_read_index 0 = self := by
      cases self
      simp only [RingBuffer.advance_read_index, wrapping_add] at *
      simp only [Nat.add_zero, Nat.mod_eq_of_lt hr]
    refine ⟨rfl, ?_, ?_, hinv, hu2⟩
    · simp [dequeue, logical_bytes]
    · rw [e]
      rfl
  · have h1 : ¬ self.get_used_size < size := by omega
    refine ⟨?_, ?_, ?_, hinv, hu2⟩
    · simp only [dequeue, hs, hb, h1, if_false]
    · simp only [dequeue, hs, hb, h1, if_false]
      rw [copy_out_eq_logical self k hk hcap hmask buf dst hlen size (by omega) hdst]
    · simp only [dequeue, hs, hb, h1, if_false, RingBuffer.advance_read_index]


/-- First in, first out, on a buffer with storage: with `U` the unread bytes (what a
`peek` of the used size returns) and `B` no longer than the free size, after
`enqueue(B)` a `peek` or a `dequeue` of `len(U) + len(B)` bytes returns `U` followed
by `B`, and so do two successive `dequeue` calls that split those bytes anywhere. -/
theorem read_back_after_enqueue (self : RingBuffer) (h : self.invariants)
    (buf : List Byte) (hb : self.buffer = some buf) (B dU d : List Byte)
    (hB : B.length ≤ self.get_free_size) (hdU : dU.length = self.get_used_size)
    (hd : d.length = self.get_used_size + B.length) :
    ∃ U, self.peek (some dU) self.get_used_size = ⟨true, self, some U⟩
      ∧ U.length = self.get_used_size
      ∧ (self.enqueue (some B) B.length).ok = true
      ∧ (self.enqueue (some B) B.length).self.get_used_size
          = self.get_used_size + B.length
      ∧ (self.enqueue (some B) B.length).self.peek (some d) (self.get_used_size + B.length)
          = ⟨true, (self.enqueue (some B) B.length).self, some (U ++ B)⟩
      ∧ ((self.enqueue (some B) B.length).self.dequeue (some d)
            (self.get_used_size + B.length)).ok = true
      ∧ ((self.enqueue (some B) B.length).self.dequeue (some d)
            (self.get_used_size + B.length)).dst = some (U ++ B)
      ∧ ((self.enqueue (some B) B.length).self.dequeue (some d)
            (self.get_used_size + B.length)).self.get_used_size = 0
      ∧ ∀ (a b : Nat) (da db : List Byte), a + b = self.get_used_size + B.length →
          da.length = a → db.length = b →
          ((self.enqueue (some B) B.length).self.dequeue (some da) a).ok = true
          ∧ ((self.enqueue (some B) B.length).self.dequeue (some da) a).dst
              = some ((U ++ B).take a)
          ∧ (((self.enqueue (some B) B.length).self.dequeue (some da) a).self.dequeue
                (some db) b).ok = true
          ∧ (((self.enqueue (some B) B.length).self.dequeue (some da) a).self.dequeue
                (some db) b).dst = some ((U ++ B).drop a) := by
  obtain ⟨k, hk, hcap, hmask, -⟩ := invariants_some self buf hb h
  obtain ⟨hok, hinv1, hr1, hu1, out, hb1, hlog⟩ :=
    enqueue_logical self h buf B hb B.length hB (Nat.le_refl _)
  rw [List.take_length] at hlog
  have hm1 : (self.enqueue (some B) B.length).self.mask = self.mask := by
    simp only [enqueue]
    repeat (first | rfl | split)
  have hc1 : (self.enqueue (some B) B.length).self.capacity = self.capacity := by
    simp only [enqueue]
    repeat (first | rfl | split)
  generalize (self.enqueue (some B) B.length).self = s1 at *
  have hdrop : ∀ (l : List Byte) (n : Nat), l.length = n → l.drop n = [] := by
    intro l n hl
    rw [← hl, List.drop_length]
  refine ⟨self.logical_bytes buf self.read_index self.get_used_size, ?_,
    logical_bytes_length _ _ _ _, hok, hu1, ?_, ?_, ?_, ?_, ?_⟩
  · rw [peek_logical self h buf dU hb _ (Nat.le_refl _) (by omega), hdrop dU _ hdU,
      List.append_nil]
  · rw [peek_logical s1 hinv1 out d hb1 _ (by omega) (by omega), hdrop d _ hd,
      List.append_nil, hr1, hlog]
  · exact (dequeue_logical s1 hinv1 out d hb1 _ (by omega) (by omega)).1
  · rw [(dequeue_logical s1 hinv1 out d hb1 _ (by omega) (by omega)).2.1, hdrop d _ hd,
      List.append_nil, hr1, hlog]
  · obtain ⟨-, -, e, -, hu2⟩ := dequeue_logical s1 hinv1 out d hb1 _
      (show self.get_used_size + B.length ≤ s1.get_used_size by omega) (by omega)
    rw [e, hu2]
    omega
  · intro a b da db hab hda hdb
    obtain ⟨ok1, dst1, e1, hinv2, hu2⟩ := dequeue_logical s1 hinv1 out da hb1 a
      (by omega) (by omega)
    have hb2 : (s1.advance_read_index a).buffer = some out := hb1
    obtain ⟨ok2, dst2, -⟩ := dequeue_logical (s1.advance_read_index a) hinv2 out db hb2 b
      (by omega) (by omega)
    have hsplit : s1.logical_bytes out self.read_index (a + b)
        = s1.logical_bytes out self.read_index a
          ++ s1.logical_bytes out (self.read_index + a) b :=
      logical_bytes_add s1 out self.read_index a b
    rw [hab, hlog] at hsplit
    have hla : (s1.logical_bytes out self.read_index a).length = a :=
      logical_bytes_length _ _ _ _
    refine ⟨ok1, ?_, ?_, ?_⟩
    · have ht := List.take_left (s1.logical_bytes out self.read_index a)
        (s1.logical_bytes out (self.read_index + a) b)
      rw [hla] at ht
      rw [dst1, hdrop da _ hda, List.append_nil, hr1, hsplit, ht]
    · rw [e1]
      exact ok2
    · rw [e1, dst2, hdrop db _ hdb, List.append_nil, hsplit]
      have hw : (s1.advance_read_index a).logical_bytes out
            (s1.advance_read_index a).read_index b
          = s1.logical_bytes out (self.read_index + a) b := by
        rw [← hr1]
        exact logical_bytes_wrapping_add s1 k hk (by rw [hc1]; exact hcap)
          (by rw [hm1, hc1]; exact hmask) out s1.read_index a b
      have ht := List.drop_left (s1.logical_bytes out self.read_index a)
        (s1.logical_bytes out (self.read_index + a) b)
      rw [hla] at ht
      rw [hw, ht]


/-- C19. First in, first out, and no overwrite of unread data: on every state
satisfying the invariants, with `U` the unread bytes (what a `peek` of the used size
returns) and `B` no longer than the free size, after `enqueue(B)` a `peek` or a
`dequeue` of `len(U) + len(B)` bytes returns exactly `U` followed by `B`, and two
successive `dequeue` calls that split those bytes anywhere return the same bytes in
the same order. -/
theorem fifo_order (self : RingBuffer) (h : self.invariants) (B dU d : List Byte)
    (hB : B.length ≤ self.get_free_size) (hdU : dU.length = self.get_used_size)
    (hd : d.length = self.get_used_size + B.length) :
    ∃ U, self.peek (some dU) self.get_used_size = ⟨true, self, some U⟩
      ∧ U.length = self.get_used_size
      ∧ (self.enqueue (some B) B.length).ok = true
      ∧ (self.enqueue (some B) B.length).self.get_used_size
          = self.get_used_size + B.length
      ∧ (self.enqueue (some B) B.length).self.peek (some d) (self.get_used_size + B.length)
          = ⟨true, (self.enqueue (some B) B.length).self, some (U ++ B)⟩
      ∧ ((self.enqueue (some B) B.length).self.dequeue (some d)
            (self.get_used_size + B.length)).ok = true
      ∧ ((self.enqueue (some B) B.length).self.dequeue (some d)
            (self.get_used_size + B.length)).dst = some (U ++ B)
      ∧ ((self.enqueue (some B) B.length).self.dequeue (some d)
            (self.get_used_size + B.length)).self.get_used_size = 0
      ∧ ∀ (a b : Nat) (da db : List Byte), a + b = self.get_used_size + B.length →
          da.length = a → db.length = b →
          ((self.enqueue (some B) B.length).self.dequeue (some da) a).ok = true
          ∧ ((self.enqueue (some B) B.length).self.dequeue (some da) a).dst
              = some ((U ++ B).take a)
          ∧ (((self.enqueue (some B) B.length).self.dequeue (some da) a).self.dequeue
                (some db) b).ok = true
          ∧ (((self.enqueue (some B) B.length).self.dequeue (some da) a).self.dequeue
                (some db) b).dst = some ((U ++ B).drop a) := by
  cases hb : self.buffer with
  | some buf => exact read_back_after_enqueue self h buf hb B dU d hB hdU hd
  | none =>
    obtain ⟨hcap, hr, hw⟩ := invariants_none self hb h
    have hu : self.get_used_size = 0 := by
      simp only [get_used_size, hr, hw, wrapping_sub]
    have hf : self.get_free_size = 0 := by
      simp only [get_free_size, get_used_size, hcap, hr, hw, wrapping_sub]
    rw [hu] at hd hdU ⊢
    rw [hf] at hB
    have hB0 : B = [] := List.length_eq_zero.mp (by omega)
    subst hB0
    have hdU0 : dU = [] := List.length_eq_zero.mp hdU
    have hd0 : d = [] := List.length_eq_zero.mp hd
    subst hdU0 hd0
    refine ⟨[], rfl, rfl, rfl, hu, rfl, rfl, rfl, hu, ?_⟩
    intro a b da db hab hda hdb
    have ha : a = 0 := by
      simp only [List.length_nil] at hab
      omega
    have hb0 : b = 0 := by
      simp only [List.length_nil] at hab
      omega
    subst ha hb0
    have hda0 : da = [] := List.length_eq_zero.mp hda
    have hdb0 : db = [] := List.length_eq_zero.mp hdb
    subst hda0 hdb0
    exact ⟨rfl, rfl, rfl, rfl⟩

/-- Capacity 8 holding the bytes 4, 5 at offsets 3, 4: after four more bytes, six
bytes come out in the order they went in, in one read or as two reads of 3. -/
theorem fifo_order_witness :
    ((⟨some [1, 2, 3, 4, 5, 0, 0, 0], 8, 7, 3, 5⟩ : RingBuffer).enqueue
        (some [11, 12, 13, 14]) 4).self
      = ⟨some [14, 2, 3, 4, 5, 11, 12, 13], 8, 7, 3, 9⟩
    ∧ ∃ U, (⟨some [1, 2, 3, 4, 5, 0, 0, 0], 8, 7, 3, 5⟩ : RingBuffer).peek (some [0, 0]) 2
          = ⟨true, ⟨some [1, 2, 3, 4, 5, 0, 0, 0], 8, 7, 3, 5⟩, some U⟩
      ∧ (((⟨some [1, 2, 3, 4, 5, 0, 0, 0], 8, 7, 3, 5⟩ : RingBuffer).enqueue
            (some [11, 12, 13, 14]) 4).self.dequeue (some [0, 0, 0, 0, 0, 0]) 6).dst
          = some (U ++ [11, 12, 13, 14]) := by
  refine ⟨by decide, ?_⟩
  obtain ⟨U, h1, -, -, -, -, -, h2, -⟩ :=
    fifo_order ⟨some [1, 2, 3, 4, 5, 0, 0, 0], 8, 7, 3, 5⟩ (by decide) [11, 12, 13, 14]
      [0, 0] [0, 0, 0, 0, 0, 0] (by decide) (by decide) (by decide)
  exact ⟨U, h1, h2⟩

/-- C15. Counter wraparound: on a state satisfying the invariants whose `write_index`
is about to pass `2^64 - 1` (`write_index + len(B) ≥ 2^64`, `read_index` not yet
wrapped), `enqueue(B)` succeeds and leaves `write_index` wrapped below `read_index`;
the used size, computed as the wrapping difference, is still the unbounded count
`write_index + len(B) - read_index` of bytes enqueued and not yet dequeued, and a
`dequeue` of all of them returns the unread bytes from before followed by `B`, in
order. -/
theorem counter_wraparound (self : RingBuffer) (h : self.invariants) (B dU d : List Byte)
    (hwrap : 18446744073709551616 ≤ self.write_index + B.length)
    (hrw : self.read_index ≤ self.write_index)
    (hB : B.length ≤ self.get_free_size) (hdU : dU.length = self.get_used_size)
    (hd : d.length = self.get_used_size + B.length) :
    (self.enqueue (some B) B.length).ok = true
    ∧ (self.enqueue (some B) B.length).self.write_index
        = self.write_index + B.length - 18446744073709551616
    ∧ (self.enqueue (some B) B.length).self.write_index
        < (self.enqueue (some B) B.length).self.read_index
    ∧ self.get_used_size = self.write_index - self.read_index
    ∧ (self.enqueue (some B) B.length).self.get_used_size
        = self.write_index + B.length - self.read_index
    ∧ ∃ U, self.peek (some dU) self.get_used_size = ⟨true, self, some U⟩
      ∧ ((self.enqueue (some B) B.length).self.dequeue (some d)
            (self.get_used_size + B.length)).ok = true
      ∧ ((self.enqueue (some B) B.length).self.dequeue (some d)
            (self.get_used_size + B.length)).dst = some (U ++ B)
      ∧ ((self.enqueue (some B) B.length).self.dequeue (some d)
            (self.get_used_size + B.length)).self.get_used_size = 0 := by
  have hw : self.write_index < 18446744073709551616 := h.2.1
  have hpos : 0 < B.length := by omega
  cases hb : self.buffer with
  | none =>
    obtain ⟨hcap, hr, hw0⟩ := invariants_none self hb h
    have hf : self.get_free_size = 0 := by
      simp only [get_free_size, get_used_size, hcap, hr, hw0, wrapping_sub]
    omega
  | some buf =>
    obtain ⟨k, hk, hcap, hmask, hlen, hr, -, hused, hc1, hc2⟩ := invariants_some self buf hb h
    have hfr := free_size_le_capacity self hc2 hused
    have hu : self.get_used_size = self.write_index - self.read_index := by
      simp only [get_used_size, wrapping_sub]
      omega
    obtain ⟨U, hp, -, hok, hu1, -, hdq, hdst, hu3, -⟩ :=
      read_back_after_enqueue self h buf hb B dU d hB hdU hd
    have he := enqueue_eq_of_room self buf B hb B.length hpos hB
    have hw1 : (self.enqueue (some B) B.length).self.write_index
        = self.write_index + B.length - 18446744073709551616 := by
      rw [he]
      show wrapping_add self.write_index B.length = _
      simp only [wrapping_add]
      omega
    have hr1 : (self.enqueue (some B) B.length).self.read_index = self.read_index := by
      rw [he]
    refine ⟨hok, hw1, ?_, hu, ?_, U, hp, hdq, hdst, hu3⟩
    · rw [hw1, hr1]
      omega
    · rw [hu1]
      omega


/-- Capacity 8 with `read_index = 2^64 - 3` and `write_index = 2^64 - 1`: four more
bytes take `write_index` to 3, the used size is 6, and the six bytes come out in
order. -/
theorem counter_wraparound_witness :
    ((⟨some [0, 0, 0, 0, 0, 7, 8, 0], 8, 7, 18446744073709551613, 18446744073709551615⟩
        : RingBuffer).enqueue (some [1, 2, 3, 4]) 4).self
      = ⟨some [2, 3, 4, 0, 0, 7, 8, 1], 8, 7, 18446744073709551613, 3⟩
    ∧ (((⟨some [0, 0, 0, 0, 0, 7, 8, 0], 8, 7, 18446744073709551613, 18446744073709551615⟩
        : RingBuffer).enqueue (some [1, 2, 3, 4]) 4).self.dequeue
          (some [0, 0, 0, 0, 0, 0]) 6).dst = some [7, 8, 1, 2, 3, 4]
    ∧ ((⟨some [0, 0, 0, 0, 0, 7, 8, 0], 8, 7, 18446744073709551613, 18446744073709551615⟩
        : RingBuffer).enqueue (some [1, 2, 3, 4]) 4).self.get_used_size
      = 18446744073709551615 + 4 - 18446744073709551613 :=
  ⟨by decide, by decide,
    (counter_wraparound
      ⟨some [0, 0, 0, 0, 0, 7, 8, 0], 8, 7, 18446744073709551613, 18446744073709551615⟩
      (by decide) [1, 2, 3, 4] [0, 0] [0, 0, 0, 0, 0, 0] (by decide) (by decide) (by decide)
      (by decide) (by decide)).2.2.2.2.1⟩

end RingBuffer

namespace RingBuffer

/-! ## The invariants are inductive -/

/-- Whatever the constructor returns satisfies the invariants, provided the allocator
hands out regions of the length it was asked for. -/
theorem construct_invariants (alloc : Nat → Option (List Byte))
    (halloc : ∀ n m, alloc n = some m → m.length = n) (c : Nat) (rb : RingBuffer)
    (h : construct alloc c = some rb) : rb.invariants := by
  have z : (0 : Nat) < 18446744073709551616 := by decide
  have hz : wrapping_sub 0 0 = 0 := by decide
  by_cases hc : c ≤ 9223372036854775808
  · obtain ⟨k, hk, -, -, heq⟩ := construct_eq alloc c hc
    rw [heq] at h
    cases ha : alloc (2 ^ k) with
    | none =>
      rw [ha] at h
      simp only [Option.some.injEq] at h
      subst h
      exact ⟨z, z, Nat.le_of_eq hz, rfl, rfl, rfl⟩
    | some mem =>
      rw [ha] at h
      simp only [Option.some.injEq] at h
      subst h
      exact invariants_of_parts _ mem k rfl hk rfl rfl (halloc _ _ ha) z z
        (by show wrapping_sub 0 0 ≤ _; rw [hz]; exact Nat.zero_le _)
  · simp [construct, bit_ceil, hc] at h

/-- Every call of the checked interface, and every in-bounds `advance_*_index`, keeps
the invariants. -/
theorem step_keeps_invariants (self : RingBuffer) (op : Op) (h : self.invariants)
    (hop : op.in_bounds self) : (self.step op).invariants := by
  have hused := step_keeps_used_size self op h.2.2.1 hop
  have hwa : ∀ a b, wrapping_add a b < 18446744073709551616 := by
    intro a b
    simp only [wrapping_add]
    omega
  cases hb : self.buffer with
  | none =>
    obtain ⟨hcap, hr, hw⟩ := invariants_none self hb h
    have hu : self.get_used_size = 0 := by
      simp only [get_used_size, hr, hw, wrapping_sub]
    have hf : self.get_free_size = 0 := by
      simp only [get_free_size, get_used_size, hcap, hr, hw, wrapping_sub]
    cases op with
    | advance_read_index size =>
      have hs : size = 0 := by
        simp only [Op.in_bounds, hu] at hop
        omega
      subst hs
      refine ⟨hwa _ _, h.2.1, hused, ?_⟩
      show storage_invariant _ self.buffer
      rw [hb]
      exact ⟨hcap, by show wrapping_add self.read_index 0 = 0; rw [hr]; rfl, hw⟩
    | advance_write_index size =>
      have hs : size = 0 := by
        simp only [Op.in_bounds, hf] at hop
        omega
      subst hs
      refine ⟨h.1, hwa _ _, hused, ?_⟩
      show storage_invariant _ self.buffer
      rw [hb]
      exact ⟨hcap, hr, by show wrapping_add self.write_index 0 = 0; rw [hw]; rfl⟩
    | enqueue src size =>
      rw [step_of_no_storage self hb hr hw (.enqueue src size) rfl]
      exact h
    | dequeue dst size =>
      rw [step_of_no_storage self hb hr hw (.dequeue dst size) rfl]
      exact h
    | peek dst size =>
      rw [step_of_no_storage self hb hr hw (.peek dst size) rfl]
      exact h
    | clear_buffer =>
      rw [step_of_no_storage self hb hr hw .clear_buffer rfl]
      exact h
  | some buf =>
    obtain ⟨k, hk, hcap, hmask, hlen, hr, hw, -, -, -⟩ := invariants_some self buf hb h
    cases op with
    | enqueue src size =>
      simp only [step, enqueue, hb] at hused ⊢
      split
      · exact h
      · cases src with
        | none => exact h
        | some s =>
          simp only at hused ⊢
          split
          · exact h
          · rename_i hs hf
            simp only [hs, hf, if_false] at hused
            exact invariants_of_parts _ (self.copy_in buf s size) k rfl hk hcap hmask
              (by rw [copy_in_length]; exact hlen) hr (hwa _ _) hused
    | dequeue dst size =>
      simp only [step, dequeue, hb] at hused ⊢
      split
      · exact h
      · cases dst with
        | none => exact h
        | some d =>
          simp only at hused ⊢
          split
          · exact h
          · rename_i hs hf
            simp only [hs, hf, if_false] at hused
            exact invariants_of_parts _ buf k rfl hk hcap hmask hlen (hwa _ _) hw hused
    | peek dst size =>
      have e : (self.peek dst size).self = self := by
        simp only [peek]
        repeat (first | rfl | split)
      show (self.peek dst size).self.invariants
      rw [e]
      exact h
    | clear_buffer =>
      exact invariants_of_parts _ buf k hb hk hcap hmask hlen (by decide : (0 : Nat) < _)
        (by decide : (0 : Nat) < _) hused
    | advance_read_index size =>
      exact invariants_of_parts _ buf k hb hk hcap hmask hlen (hwa _ _) hw hused
    | advance_write_index size =>
      exact invariants_of_parts _ buf k hb hk hcap hmask hlen hr (hwa _ _) hused

/-- A move hands the invariants of the source over to the destination and leaves a
source that satisfies them too. -/
theorem move_keeps_invariants (A B : RingBuffer) (h : A.invariants) :
    (move_construct A).1.invariants ∧ (move_construct A).2.invariants
    ∧ (move_assign B A false).1.invariants ∧ (move_assign B A false).2.invariants := by
  have z : (0 : Nat) < 18446744073709551616 := by decide
  have hz : wrapping_sub 0 0 = 0 := by decide
  have h2 : (move_construct A).2.invariants := ⟨z, z, Nat.le_of_eq hz, rfl, rfl, rfl⟩
  exact ⟨h, h2, h, h2⟩

end RingBuffer
